import Mathlib

/-! Verification development for the MemoryOS `updater` module
(`memoryos-chromadb/updater.py`): a shallow embedding of its data model and
operations, together with theorems about the short-term → mid-term promotion
pipeline, the per-page embedding/keyword enrichment, and the long-term
knowledge promoter. -/

namespace MemoryOSUpdater

/-- String literal helpers (kept as named constants). -/
def newlineSep : String := "\n"

def noneWord : String := "none"

def newlineChar : Char := '\n'

/-- Python `str.lower()`: lowercase the underlying characters.  (Defined on
the character list so that concrete runs reduce inside the kernel.) -/
def strLower (s : String) : String := ⟨s.data.map Char.toLower⟩

/-- Python `str.strip()`: drop leading and trailing whitespace. -/
def strTrim (s : String) : String :=
  ⟨((s.data.dropWhile Char.isWhitespace).reverse.dropWhile Char.isWhitespace).reverse⟩

def splitLinesAux : List Char → List (List Char)
  | [] => [[]]
  | c :: rest =>
    match splitLinesAux rest with
    | [] => [[]]
    | l :: ls => if c = newlineChar then [] :: l :: ls else (c :: l) :: ls

/-- Python `str.split("\n")`: split on every newline, keeping empty pieces. -/
def strSplitNewline (s : String) : List String := (splitLinesAux s.data).map (fun l => ⟨l⟩)

/-- The three literal forms excluded by `update_long_term_from_analysis`
(updater.py lines 223 and 230): `["none", "- none", "- none."]`. -/
def noneLike : List String := [noneWord, "- " ++ noneWord, "- " ++ noneWord ++ "."]

/-- One page record, as built by `process_short_term_to_mid_term` (updater.py
lines 125-135). Page ids are natural numbers; `generate_id` is modelled as a
fresh counter (`UState.nextId`), faithful to the spec invariant that page ids
are unique across the process lifetime (`utils.generate_id` is not in `src/`).
The `page_embedding` / `page_keywords` attributes are used by
`process_page_embedding_and_keywords`; an absent dict key and a Python-falsy
stored value are both modelled as `none` (resp. an empty list inside `some`). -/
structure Page where
  page_id : Nat
  user_input : String
  agent_response : String
  timestamp : Nat
  preloaded : Bool
  analyzed : Bool
  pre_page : Option Nat
  next_page : Option Nat
  meta_info : Option String
  page_embedding : Option (List Int)
  page_keywords : Option (List String)
deriving DecidableEq, Repr

/-- One conversational turn held by the short-term memory.  A missing
timestamp key is `none` (then `get_timestamp` supplies a default). -/
structure QA where
  user_input : String
  agent_response : String
  timestamp : Option Nat
deriving DecidableEq, Repr

/-- One element of the `summaries` list produced by
`gpt_generate_multi_summary` (consumed at updater.py lines 174-177). -/
structure SummaryItem where
  theme : Option String
  content : Option String
  keywords : Option (List String)
deriving DecidableEq, Repr

/-- Result dict of `gpt_generate_multi_summary`: may or may not carry a
`summaries` key. -/
structure MultiSummaryResult where
  summaries : Option (List SummaryItem)
deriving DecidableEq, Repr

/-- Recorded arguments of one `insert_pages_into_session` call
(updater.py lines 179-184 and 190-195); `pages` holds the page ids of
`pages_to_insert`. -/
structure InsertCall where
  summary : String
  keywords : List String
  pages : List Nat
deriving DecidableEq, Repr

/-- Long-term memory state.  Modelled from the spec: `long_term.py` is not in
`src/`; §6 gives `updateUserProfile(userId, text, merge)`,
`addUserKnowledge(text)`, `addAssistantKnowledge(text)` and §4.6 says a
non-trivial profile replaces the stored one while surviving knowledge lines
are appended. -/
structure LongTermMemory where
  profiles : List (String × String)
  user_knowledge : List String
  assistant_knowledge : List String
deriving DecidableEq, Repr

/-- The dict produced by the profile/knowledge analysis, consumed by
`update_long_term_from_analysis` (keys `profile`, `private`,
`assistant_knowledge`; a missing key is `none`).  The Python parameter
`profile_analysis_result` itself being falsy is modelled by wrapping in
`Option` at the call. -/
structure AnalysisResult where
  profile : Option String
  private_knowledge : Option String
  assistant_knowledge : Option String
deriving DecidableEq, Repr

/-- Heap of all page dicts ever created, keyed by page id.  Python dicts are
mutable objects shared by reference between the batch list, the continuity
cursor and the mid-term store; mutating through any alias mutates the single
heap entry. -/
def heapGet : List (Nat × Page) → Nat → Option Page
  | [], _ => none
  | e :: rest, i => if e.1 = i then some e.2 else heapGet rest i

/-- Replace the entry with key `i` (first occurrence), or append a fresh one. -/
def heapSet : List (Nat × Page) → Nat → Page → List (Nat × Page)
  | [], i, p => [(i, p)]
  | e :: rest, i, p => if e.1 = i then (i, p) :: rest else e :: heapSet rest i p

theorem heapGet_heapSet_eq (h : List (Nat × Page)) (i : Nat) (p : Page) :
    heapGet (heapSet h i p) i = some p := by
  induction h with
  | nil => simp [heapSet, heapGet]
  | cons e rest ih =>
      by_cases he : e.1 = i
      · simp [heapSet, he, heapGet]
      · simp [heapSet, he, heapGet, ih]

theorem heapGet_heapSet_ne (h : List (Nat × Page)) (i j : Nat) (p : Page)
    (hij : i ≠ j) : heapGet (heapSet h j p) i = heapGet h i := by
  have hji : ¬ j = i := fun hc => hij hc.symm
  induction h with
  | nil => simp [heapSet, heapGet, hji]
  | cons e rest ih =>
      simp only [heapSet]
      by_cases he : e.1 = j
      · rw [if_pos he]
        simp only [heapGet]
        rw [if_neg hji, if_neg (show ¬ e.1 = i from fun hc => hji (he.symm.trans hc))]
      · rw [if_neg he]
        simp only [heapGet]
        rw [ih]

/-- Keys present after `heapSet` come from the old keys or are the new key. -/
theorem mem_heapSet (h : List (Nat × Page)) (i : Nat) (p : Page) (e : Nat × Page)
    (he : e ∈ heapSet h i p) : e.1 = i ∨ e ∈ h := by
  induction h with
  | nil => simp [heapSet] at he; simp [he]
  | cons e0 rest ih =>
      by_cases h0 : e0.1 = i
      · simp [heapSet, h0] at he
        rcases he with he | he
        · simp [he]
        · right; exact List.mem_cons_of_mem _ he
      · simp [heapSet, h0] at he
        rcases he with he | he
        · right; simp [he]
        · rcases ih he with h1 | h1
          · exact Or.inl h1
          · right; exact List.mem_cons_of_mem _ h1

/-- Modelled from the spec: `updateUserProfile(userId, text, merge=False)`
replaces the stored profile for `userId` (§4.6: non-trivial profile text
replaces the stored profile). -/
def update_user_profile (ltm : LongTermMemory) (user_id : String) (text : String) :
    LongTermMemory :=
  { ltm with profiles :=
      if (ltm.profiles.filter (fun e => e.1 = user_id)).isEmpty
      then ltm.profiles ++ [(user_id, text)]
      else ltm.profiles.map (fun e => if e.1 = user_id then (user_id, text) else e) }

/-- Modelled from the spec: `addUserKnowledge(text)` appends one user-owned
knowledge item (§4.6). -/
def add_user_knowledge (ltm : LongTermMemory) (text : String) : LongTermMemory :=
  { ltm with user_knowledge := ltm.user_knowledge ++ [text] }

/-- Modelled from the spec: `addAssistantKnowledge(text)` appends one
assistant-owned knowledge item (§4.6). -/
def add_assistant_knowledge (ltm : LongTermMemory) (text : String) : LongTermMemory :=
  { ltm with assistant_knowledge := ltm.assistant_knowledge ++ [text] }

/-- Keep a stripped line iff it is non-blank and its lowercase form is not one
of the three excluded literals (updater.py lines 223 and 230). -/
def keepLine (line : String) : Bool :=
  strTrim line ≠ "" && !(noneLike.contains (strLower (strTrim line)))

/-- First block of `update_long_term_from_analysis` (updater.py lines
214-217): a truthy profile text whose lowercase form differs from `"none"`
replaces the stored profile. -/
def profileStage (user_id : String) (prof : Option String)
    (ltm : LongTermMemory) : LongTermMemory :=
  match prof with
  | some t =>
      if t ≠ "" ∧ strLower t ≠ noneWord then update_user_profile ltm user_id t else ltm
  | none => ltm

/-- Second block (updater.py lines 219-224): split the truthy private text on
newlines and append each surviving stripped line as user knowledge. -/
def privateStage (priv : Option String) (ltm : LongTermMemory) : LongTermMemory :=
  match priv with
  | some t =>
      if t ≠ "" ∧ strLower t ≠ noneWord
      then (strSplitNewline t).foldl
             (fun acc line => if keepLine line then add_user_knowledge acc (strTrim line) else acc)
             ltm
      else ltm
  | none => ltm

/-- Third block (updater.py lines 226-231): same filter for the assistant
knowledge text. -/
def assistantStage (asst : Option String) (ltm : LongTermMemory) : LongTermMemory :=
  match asst with
  | some t =>
      if t ≠ "" ∧ strLower t ≠ noneWord
      then (strSplitNewline t).foldl
             (fun acc line => if keepLine line then add_assistant_knowledge acc (strTrim line) else acc)
             ltm
      else ltm
  | none => ltm

/-- `update_long_term_from_analysis` (updater.py lines 206-231): the three
guarded blocks run in sequence.  Python truthiness of the text fields is
modelled as `some t` with `t ≠ ""`; a falsy whole `profile_analysis_result`
is the `none` case. -/
def update_long_term_from_analysis (user_id : String)
    (profile_analysis_result : Option AnalysisResult)
    (ltm : LongTermMemory) : LongTermMemory :=
  match profile_analysis_result with
  | none => ltm
  | some a =>
      assistantStage a.assistant_knowledge
        (privateStage a.private_knowledge
          (profileStage user_id a.profile ltm))

/-- Process-wide updater state.  `heap` holds every page dict ever created
(mutable objects addressed by page id); `mtm` is the set of page ids currently
held by the mid-term store (the store keeps references into the same heap, per
spec §4.4: pages are shared by reference, not duplicated); `insertCalls` and
`connCalls` log the arguments of `insert_pages_into_session` and
`update_page_connections` requests; `saves` counts `mid_term_memory.save()`
calls; `last_evicted` is `self.last_evicted_page_for_continuity` (the id of
the referenced page dict); `nextId` is the `generate_id` counter. -/
structure UState where
  stmQueue : List QA
  stmCapacity : Nat
  heap : List (Nat × Page)
  mtm : List Nat
  insertCalls : List InsertCall
  connCalls : List (Nat × Nat)
  saves : Nat
  last_evicted : Option Nat
  nextId : Nat
deriving DecidableEq, Repr

/-- Pure collaborator oracles (LLM/embedding backend and clock), spec §6. -/
structure Oracles where
  check_continuity : Option Page → Page → Bool
  gen_meta : Option String → Page → String
  get_timestamp : Nat
  multi_summary : String → Option MultiSummaryResult
  extract_keywords : String → List String

/-- Which batch-level collaborator calls made after page building raise an
exception (spec §7: batch-level failures abort the remaining steps).  Each
predicate receives the call's arguments. -/
structure RaiseSpec where
  summary_raises : String → Bool
  keywords_raises : String → Bool
  insert_raises : InsertCall → Bool
  conn_raises : Nat × Nat → Bool

/-- The never-raising instantiation (every collaborator call succeeds). -/
def noRaise : RaiseSpec :=
  { summary_raises := fun _ => false,
    keywords_raises := fun _ => false,
    insert_raises := fun _ => false,
    conn_raises := fun _ => false }

/-- `mid_term_memory.get_page_by_id`: the store resolves an id to the shared
page dict iff it currently holds that page (spec §6). -/
def get_page_by_id (s : UState) (i : Nat) : Option Page :=
  if i ∈ s.mtm then heapGet s.heap i else none

/-- Modelled from the spec: `mid_term.update_page_connections(from_id, to_id)`
(spec §4.5) registers/repairs the directed edge: it sets
`from.next_page = to_id` and `to.pre_page = from_id` on the pages the store
holds; the request is logged in `connCalls`. -/
def update_page_connections (s : UState) (fromId toId : Nat) : UState :=
  let s1 : UState := { s with connCalls := s.connCalls ++ [(fromId, toId)] }
  match get_page_by_id s1 fromId with
  | some p =>
    let s2 : UState :=
      { s1 with heap := heapSet s1.heap fromId { p with next_page := some toId } }
    match get_page_by_id s2 toId with
    | some p2 => { s2 with heap := heapSet s2.heap toId { p2 with pre_page := some fromId } }
    | none => s2
  | none =>
    match get_page_by_id s1 toId with
    | some p2 => { s1 with heap := heapSet s1.heap toId { p2 with pre_page := some fromId } }
    | none => s1

/-- Enqueue a neighbour id (updater.py lines 94-103): append it to the queue
and mark it visited unless it is already in the visited set; a `none` pointer
enqueues nothing (page ids are always Python-truthy strings, so the
`if prev_id` / `if next_id` truthiness tests reduce to key presence). -/
def enqueue (idOpt : Option Nat) (qv : List Nat × List Nat) : List Nat × List Nat :=
  match idOpt with
  | some x => if x ∈ qv.2 then qv else (qv.1 ++ [x], x :: qv.2)
  | none => qv

/-- The breadth-first walk of `_update_linked_pages_meta_info` (updater.py
lines 84-103): the queue is consumed front-first; unvisited `pre_page` /
`next_page` neighbours of each found page are appended.  The walk is
fuel-bounded; the fuel chosen in `update_linked_pages_meta_info` covers every
reachable id. -/
def bfsProp (newMeta : String) : Nat → List Nat → List Nat → UState → UState
  | 0, _, _, s => s
  | _ + 1, [], _, s => s
  | fuel + 1, i :: q, visited, s =>
    match get_page_by_id s i with
    | none => bfsProp newMeta fuel q visited s
    | some p =>
      let s1 : UState := { s with heap := heapSet s.heap i { p with meta_info := some newMeta } }
      let qv2 : List Nat × List Nat := enqueue p.next_page (enqueue p.pre_page (q, visited))
      bfsProp newMeta fuel qv2.1 qv2.2 s1

/-- `_update_linked_pages_meta_info(start_page_id, new_meta_info)` (updater.py
lines 80-105).  Each enqueued id is added to the visited set first, neighbour
ids come from pages the store holds, so `2 * heap size + 2` units of fuel
dominate the Python loop; the trailing `save()` always fires (`q` starts
non-empty). -/
def update_linked_pages_meta_info (s : UState) (start_page_id : Nat)
    (new_meta_info : String) : UState :=
  let s1 := bfsProp new_meta_info (2 * s.heap.length + 2) [start_page_id] [start_page_id] s
  { s1 with saves := s1.saves + 1 }

/-- Modelled from the spec: the short-term store's `is_full()` (§6) with the
eviction loop of updater.py lines 108-112: while full, pop the oldest turn and
keep it iff both `user_input` and `agent_response` are truthy.  Returns
(evicted turns, remaining queue). -/
def drainLoop (capacity : Nat) : List QA → List QA × List QA
  | [] => ([], [])
  | qa :: rest =>
    if capacity ≤ rest.length + 1 then
      let r := drainLoop capacity rest
      (if qa.user_input ≠ "" ∧ qa.agent_response ≠ "" then qa :: r.1 else r.1, r.2)
    else ([], qa :: rest)

/-- The fresh page dict of updater.py lines 125-135, before any continuity
handling. -/
def freshPage (o : Oracles) (s : UState) (qa : QA) : Page :=
  { page_id := s.nextId,
    user_input := qa.user_input,
    agent_response := qa.agent_response,
    timestamp := qa.timestamp.getD o.get_timestamp,
    preloaded := false,
    analyzed := false,
    pre_page := none,
    next_page := none,
    meta_info := none,
    page_embedding := none,
    page_keywords := none }

/-- The meta info newly generated at updater.py line 144: `generate_page_meta_info`
applied to the previous page's current `meta_info` and the current page (whose
`pre_page` was just set at line 140). -/
def newMetaOf (o : Oracles) (s : UState) (lastId : Nat) (qa : QA) : String :=
  o.gen_meta ((heapGet s.heap lastId).bind (fun p => p.meta_info))
    { freshPage o s qa with pre_page := some lastId }

/-- The page after the continuity branch (updater.py lines 140-145):
`pre_page` set to the previous page's id, `meta_info` set to the newly
generated meta info. -/
def contPage (o : Oracles) (s : UState) (lastId : Nat) (qa : QA) : Page :=
  { freshPage o s qa with
    pre_page := some lastId,
    meta_info := some (newMetaOf o s lastId qa) }

/-- The page after the no-continuity branch (updater.py line 151): fresh meta
info generated with no prior context. -/
def freshMetaPage (o : Oracles) (s : UState) (qa : QA) : Page :=
  { freshPage o s qa with meta_info := some (o.gen_meta none (freshPage o s qa)) }

/-- The state right after the continuity branch mutated the current page (the
fresh page dict was created, then updated in place). -/
def contState (o : Oracles) (s : UState) (lastId : Nat) (qa : QA) : UState :=
  { s with
    heap := heapSet (heapSet s.heap s.nextId (freshPage o s qa)) s.nextId
      (contPage o s lastId qa),
    nextId := s.nextId + 1 }

/-- The state after the no-continuity branch. -/
def freshMetaState (o : Oracles) (s : UState) (qa : QA) : UState :=
  { s with
    heap := heapSet (heapSet s.heap s.nextId (freshPage o s qa)) s.nextId
      (freshMetaPage o s qa),
    nextId := s.nextId + 1 }

/-- One iteration of the page-building loop (updater.py lines 124-154) on one
evicted turn: build the page, run the continuity judgment against
`temp_last_page_in_batch` (the previous page dict, read through the heap),
thread `pre_page`, generate meta info, and — when the previous page is
persisted — propagate the new meta info.  When `temp_last_page_in_batch` is
`None` the Python still calls the judgment with `None` but discards its value
(line 139 requires a non-`None` previous page), so the call is elided.
Returns the new state and the built page's id. -/
def buildStep (o : Oracles) (s : UState) (tempLast : Option Nat) (qa : QA) :
    UState × Nat :=
  match tempLast with
  | some lastId =>
    if o.check_continuity (heapGet s.heap lastId) (freshPage o s qa) then
      if (get_page_by_id (contState o s lastId qa) lastId).isSome then
        (update_linked_pages_meta_info (contState o s lastId qa) lastId
           (newMetaOf o s lastId qa), s.nextId)
      else (contState o s lastId qa, s.nextId)
    else (freshMetaState o s qa, s.nextId)
  | none => (freshMetaState o s qa, s.nextId)

/-- The whole page-building loop, folding `buildStep` over the evicted turns
and accumulating the built page ids in order. -/
def buildLoop (o : Oracles) : List QA → UState → Option Nat → List Nat →
    UState × List Nat
  | [], s, _, acc => (s, acc)
  | qa :: rest, s, tempLast, acc =>
    let r := buildStep o s tempLast qa
    buildLoop o rest r.1 (some r.2) (acc ++ [r.2])

/-- The text a batch page contributes to `input_text_for_summary`
(updater.py lines 164-167). -/
def pageText (s : UState) (i : Nat) : String :=
  match heapGet s.heap i with
  | some p => "User: " ++ p.user_input ++ newlineSep ++ "Assistant: " ++ p.agent_response
  | none => ""

def batchInputText (s : UState) (batch : List Nat) : String :=
  String.intercalate newlineSep (batch.map (pageText s))

/-- Default theme summary (updater.py line 175). -/
def defaultThemeSummary : String := "General summary of recent interactions."

/-- Fallback session summary (updater.py line 188). -/
def fallbackSummary : String := "General conversation segment from short-term memory."

def mkInsertCall (batch : List Nat) (item : SummaryItem) : InsertCall :=
  { summary := item.content.getD defaultThemeSummary,
    keywords := item.keywords.getD [],
    pages := batch }

/-- Modelled from the spec: `insert_pages_into_session` (§4.4) places the whole
batch into the mid-term store under the given theme; the store keeps
references to the shared page dicts and does not duplicate pages it already
holds.  The call's arguments are logged. -/
def insertPages (s : UState) (c : InsertCall) : UState :=
  { s with
    mtm := c.pages.foldl (fun m i => if i ∈ m then m else m ++ [i]) s.mtm,
    insertCalls := s.insertCalls ++ [c] }

/-- Python truthiness of `multi_summary_result and multi_summary_result.get("summaries")`
(updater.py line 173): a present, non-empty summaries list. -/
def summariesOf (r : Option MultiSummaryResult) : Option (List SummaryItem) :=
  match r with
  | some m =>
    match m.summaries with
    | some (x :: xs) => some (x :: xs)
    | _ => none
  | none => none

/-- The per-theme insertion loop (updater.py lines 174-184); an exception from
the store call carries the state reached so far. -/
def insertLoop (r : RaiseSpec) (batch : List Nat) :
    List SummaryItem → UState → Except UState UState
  | [], s => .ok s
  | item :: rest, s =>
    let c := mkInsertCall batch item
    if r.insert_raises c then .error s
    else insertLoop r batch rest (insertPages s c)

/-- The fallback branch (updater.py lines 186-195). -/
def fallbackInsert (o : Oracles) (r : RaiseSpec) (batch : List Nat) (txt : String)
    (s : UState) : Except UState UState :=
  if txt ≠ "" ∧ r.keywords_raises txt then .error s
  else
    let kws := if txt ≠ "" then o.extract_keywords txt else []
    let c : InsertCall := { summary := fallbackSummary, keywords := kws, pages := batch }
    if r.insert_raises c then .error s
    else .ok (insertPages s c)

/-- The single insertion request of the fallback branch. -/
def fallbackCall (o : Oracles) (txt : String) (batch : List Nat) : InsertCall :=
  { summary := fallbackSummary,
    keywords := if txt ≠ "" then o.extract_keywords txt else [],
    pages := batch }

/-- One iteration of the finalization loop (updater.py lines 198-202): the two
truthiness tests read the live page dict, so the `next_page` test observes any
mutation made by the `pre_page` branch. -/
def finalizeStep (r : RaiseSpec) (s : UState) (pid : Nat) : Except UState UState :=
  match heapGet s.heap pid with
  | none => .ok s
  | some p =>
    let step1 : Except UState UState :=
      match p.pre_page with
      | some preId =>
          if r.conn_raises (preId, pid) then .error s
          else .ok (update_page_connections s preId pid)
      | none => .ok s
    match step1 with
    | .error s1 => .error s1
    | .ok s1 =>
      match (heapGet s1.heap pid).bind (fun p2 => p2.next_page) with
      | some nextId =>
          if r.conn_raises (pid, nextId) then .error s1
          else .ok (update_page_connections s1 pid nextId)
      | none => .ok s1

def finalizeLoop (r : RaiseSpec) : List Nat → UState → Except UState UState
  | [], s => .ok s
  | pid :: rest, s =>
    match finalizeStep r s pid with
    | .error s1 => .error s1
    | .ok s1 => finalizeLoop r rest s1

/-- Steps 2-3 and finalization of `process_short_term_to_mid_term`
(updater.py lines 160-204), run after the batch pages are built: multi-topic
summary, session insertion (per theme, or the fallback), bidirectional link
repair, and the closing `save()`.  An `Except.error` result carries the state
at the moment the batch-level collaborator call raised. -/
def postPhase (o : Oracles) (r : RaiseSpec) (batch : List Nat) (s : UState) :
    Except UState UState :=
  let txt := batchInputText s batch
  if r.summary_raises txt then .error s
  else
    let afterInsert : Except UState UState :=
      match summariesOf (o.multi_summary txt) with
      | some items => insertLoop r batch items s
      | none => fallbackInsert o r batch txt s
    match afterInsert with
    | .error s1 => .error s1
    | .ok s1 =>
      match finalizeLoop r batch s1 with
      | .error s2 => .error s2
      | .ok s2 =>
          .ok (if batch.isEmpty then s2 else { s2 with saves := s2.saves + 1 })

/-- `process_short_term_to_mid_term` (updater.py lines 107-204). -/
def process_short_term_to_mid_term (o : Oracles) (r : RaiseSpec) (s : UState) :
    Except UState UState :=
  let d := drainLoop s.stmCapacity s.stmQueue
  let s1 : UState := { s with stmQueue := d.2 }
  if d.1.isEmpty then .ok s1
  else
    let b := buildLoop o d.1 s1 s1.last_evicted []
    let s2 : UState :=
      match b.2.getLast? with
      | some lastPid => { b.1 with last_evicted := some lastPid }
      | none => b.1
    if b.2.isEmpty then .ok s2
    else postPhase o r b.2 s2

/-- The Python state at the end of the call: on an uncaught exception the
mutations made so far remain. -/
def resultState : Except UState UState → UState
  | .ok s => s
  | .error s => s

/-- Which of the two derived-attribute computations of
`_process_page_embedding_and_keywords` get scheduled. -/
inductive TaskType where
  | embedding
  | keywords
deriving DecidableEq, Repr

/-- Python truthiness of `"page_embedding" in page_data and page_data["page_embedding"]`:
key present with a non-empty value. -/
def truthyEmb : Option (List Int) → Bool
  | some (_ :: _) => true
  | _ => false

def truthyKw : Option (List String) → Bool
  | some (_ :: _) => true
  | _ => false

/-- `_process_page_embedding_and_keywords` (updater.py lines 38-78).  The two
scheduled computations run in an executor and are joined; each failed future
yields `None` for its slot (lines 63-69) and only non-`None` results are
stored (lines 72-76), so the observable outcome is deterministic in the two
per-task results.  `get_embedding` / `extract_keywords_from_multi_summary` are
fallible collaborators; `normalize_vector` is the backend's normalization
(`utils.py` is not in `src/`), passed in as a function.  Returns the updated
page and the list of scheduled tasks. -/
def fullTextOf (page_data : Page) : String :=
  "User: " ++ page_data.user_input ++ " Assistant: " ++ page_data.agent_response

def process_page_embedding_and_keywords
    (get_embedding : String → Except Unit (List Int))
    (extract_keywords : String → Except Unit (List String))
    (normalize_vector : List Int → List Int)
    (page_data : Page) : Page × List TaskType :=
  if truthyEmb page_data.page_embedding ∧ truthyKw page_data.page_keywords then
    (page_data, [])
  else
    let full_text := fullTextOf page_data
    let tasks : List TaskType :=
      (if !truthyEmb page_data.page_embedding then [TaskType.embedding] else []) ++
      (if !truthyKw page_data.page_keywords then [TaskType.keywords] else [])
    let embRes : Option (List Int) :=
      if TaskType.embedding ∈ tasks then (get_embedding full_text).toOption else none
    let kwRes : Option (List String) :=
      if TaskType.keywords ∈ tasks then (extract_keywords full_text).toOption else none
    let p1 : Page :=
      match embRes with
      | some v => { page_data with page_embedding := some (normalize_vector v) }
      | none => page_data
    let p2 : Page :=
      match kwRes with
      | some k => { p1 with page_keywords := some k }
      | none => p1
    (p2, tasks)

/-! Helper lemmas for the knowledge promoter. -/

theorem update_user_profile_knowledge (ltm : LongTermMemory) (u t : String) :
    (update_user_profile ltm u t).user_knowledge = ltm.user_knowledge ∧
    (update_user_profile ltm u t).assistant_knowledge = ltm.assistant_knowledge := by
  constructor <;> rfl

theorem foldl_add_user_spec (lines : List String) (ltm : LongTermMemory) :
    (lines.foldl (fun acc line => if keepLine line then add_user_knowledge acc (strTrim line) else acc) ltm)
      = { ltm with user_knowledge :=
            ltm.user_knowledge ++ (lines.filter keepLine).map strTrim } := by
  induction lines generalizing ltm with
  | nil => simp
  | cons l rest ih =>
      by_cases hk : keepLine l
      · simp only [List.foldl_cons, hk, if_pos, List.filter_cons_of_pos, List.map_cons]
        rw [ih]
        simp [add_user_knowledge]
      · simp only [List.foldl_cons, hk, if_neg, List.filter_cons_of_neg, Bool.false_eq_true,
          not_false_eq_true]
        rw [ih]

theorem foldl_add_assistant_spec (lines : List String) (ltm : LongTermMemory) :
    (lines.foldl (fun acc line => if keepLine line then add_assistant_knowledge acc (strTrim line) else acc) ltm)
      = { ltm with assistant_knowledge :=
            ltm.assistant_knowledge ++ (lines.filter keepLine).map strTrim } := by
  induction lines generalizing ltm with
  | nil => simp
  | cons l rest ih =>
      by_cases hk : keepLine l
      · simp only [List.foldl_cons, hk, if_pos, List.filter_cons_of_pos, List.map_cons]
        rw [ih]
        simp [add_assistant_knowledge]
      · simp only [List.foldl_cons, hk, if_neg, List.filter_cons_of_neg, Bool.false_eq_true,
          not_false_eq_true]
        rw [ih]

theorem profileStage_user_knowledge (user_id : String) (prof : Option String)
    (ltm : LongTermMemory) :
    (profileStage user_id prof ltm).user_knowledge = ltm.user_knowledge := by
  cases prof with
  | none => rfl
  | some t =>
      by_cases hc : t ≠ "" ∧ strLower t ≠ noneWord
      · simp [profileStage, hc, update_user_profile]
      · simp [profileStage, hc]

theorem profileStage_assistant_knowledge (user_id : String) (prof : Option String)
    (ltm : LongTermMemory) :
    (profileStage user_id prof ltm).assistant_knowledge = ltm.assistant_knowledge := by
  cases prof with
  | none => rfl
  | some t =>
      by_cases hc : t ≠ "" ∧ strLower t ≠ noneWord
      · simp [profileStage, hc, update_user_profile]
      · simp [profileStage, hc]

theorem profileStage_profiles_of_guard_false (user_id : String) (t : String)
    (ltm : LongTermMemory) (hc : ¬ (t ≠ "" ∧ strLower t ≠ noneWord)) :
    (profileStage user_id (some t) ltm).profiles = ltm.profiles := by
  simp [profileStage, hc]

/-- The lines the private block appends for a given private text value. -/
def privateSurvivors (priv : Option String) : List String :=
  match priv with
  | some t =>
      if t ≠ "" ∧ strLower t ≠ noneWord
      then ((strSplitNewline t).filter keepLine).map strTrim
      else []
  | none => []

theorem privateStage_spec (priv : Option String) (ltm : LongTermMemory) :
    privateStage priv ltm
      = { ltm with user_knowledge := ltm.user_knowledge ++ privateSurvivors priv } := by
  cases priv with
  | none => simp [privateStage, privateSurvivors]
  | some t =>
      by_cases hc : t ≠ "" ∧ strLower t ≠ noneWord
      · simp [privateStage, privateSurvivors, hc, foldl_add_user_spec]
      · simp [privateStage, privateSurvivors, hc]

theorem assistantStage_spec (asst : Option String) (ltm : LongTermMemory) :
    assistantStage asst ltm
      = { ltm with assistant_knowledge := ltm.assistant_knowledge ++ privateSurvivors asst } := by
  cases asst with
  | none => simp [assistantStage, privateSurvivors]
  | some t =>
      by_cases hc : t ≠ "" ∧ strLower t ≠ noneWord
      · simp [assistantStage, privateSurvivors, hc, foldl_add_assistant_spec]
      · simp [assistantStage, privateSurvivors, hc]

/-- The user-knowledge lines appended by one `update_long_term_from_analysis`
call: the stripped survivors of the `private` text's line filter. -/
theorem user_knowledge_of_update (user_id : String) (a : AnalysisResult)
    (ltm : LongTermMemory) :
    (update_long_term_from_analysis user_id (some a) ltm).user_knowledge
      = ltm.user_knowledge ++ privateSurvivors a.private_knowledge := by
  rw [show update_long_term_from_analysis user_id (some a) ltm
        = assistantStage a.assistant_knowledge
            (privateStage a.private_knowledge (profileStage user_id a.profile ltm)) from rfl,
      assistantStage_spec, privateStage_spec]
  simp [profileStage_user_knowledge]

/-- Same characterization for the assistant-knowledge lines. -/
theorem assistant_knowledge_of_update (user_id : String) (a : AnalysisResult)
    (ltm : LongTermMemory) :
    (update_long_term_from_analysis user_id (some a) ltm).assistant_knowledge
      = ltm.assistant_knowledge ++ privateSurvivors a.assistant_knowledge := by
  rw [show update_long_term_from_analysis user_id (some a) ltm
        = assistantStage a.assistant_knowledge
            (privateStage a.private_knowledge (profileStage user_id a.profile ltm)) from rfl,
      assistantStage_spec, privateStage_spec]
  simp [profileStage_assistant_knowledge]

theorem keepLine_eq_true (line : String) :
    keepLine line = true ↔
      strTrim line ≠ "" ∧ noneLike.contains (strLower (strTrim line)) = false := by
  simp [keepLine, Bool.and_eq_true, Bool.not_eq_true', decide_eq_true_eq]

/-- C6 (amended): lines whose stripped lowercase form is blank or exactly one
of the code's three literals `"none"`, `"- none"`, `"- none."` are never
persisted by `update_long_term_from_analysis`; every other surviving line
(including `"none."`, period without bullet, which the original claim said is
discarded) is appended stripped — private lines as user knowledge, assistant
lines as assistant knowledge. -/
theorem C6_thm (user_id : String) (a : AnalysisResult) (ltm : LongTermMemory) :
    (∀ k ∈ (update_long_term_from_analysis user_id (some a) ltm).user_knowledge,
        k ∈ ltm.user_knowledge ∨ (k ≠ "" ∧ noneLike.contains (strLower k) = false)) ∧
    (∀ k ∈ (update_long_term_from_analysis user_id (some a) ltm).assistant_knowledge,
        k ∈ ltm.assistant_knowledge ∨ (k ≠ "" ∧ noneLike.contains (strLower k) = false)) ∧
    (∀ t, a.private_knowledge = some t → t ≠ "" → strLower t ≠ noneWord →
       ∀ line ∈ strSplitNewline t, keepLine line = true →
         strTrim line ∈ (update_long_term_from_analysis user_id (some a) ltm).user_knowledge) ∧
    (∀ t, a.assistant_knowledge = some t → t ≠ "" → strLower t ≠ noneWord →
       ∀ line ∈ strSplitNewline t, keepLine line = true →
         strTrim line ∈ (update_long_term_from_analysis user_id (some a) ltm).assistant_knowledge) := by
  have hpos : ∀ t, (t ≠ "" ∧ strLower t ≠ noneWord) →
      privateSurvivors (some t) = ((strSplitNewline t).filter keepLine).map strTrim := by
    intro t hc
    rw [show privateSurvivors (some t)
          = if t ≠ "" ∧ strLower t ≠ noneWord
            then ((strSplitNewline t).filter keepLine).map strTrim else [] from rfl,
        if_pos hc]
  have hsurv : ∀ (o : Option String) (k : String), k ∈ privateSurvivors o →
      k ≠ "" ∧ noneLike.contains (strLower k) = false := by
    intro o k hk
    cases o with
    | none => simp [privateSurvivors] at hk
    | some t =>
        by_cases hc : t ≠ "" ∧ strLower t ≠ noneWord
        · rw [hpos t hc] at hk
          obtain ⟨l, hl, hlk⟩ := List.mem_map.mp hk
          have hkeep := (List.mem_filter.mp hl).2
          rw [keepLine_eq_true] at hkeep
          exact hlk ▸ hkeep
        · rw [show privateSurvivors (some t)
                = if t ≠ "" ∧ strLower t ≠ noneWord
                  then ((strSplitNewline t).filter keepLine).map strTrim else [] from rfl,
              if_neg hc] at hk
          simp at hk
  have hmem : ∀ (t : String) (line : String), line ∈ strSplitNewline t →
      keepLine line = true → (t ≠ "" ∧ strLower t ≠ noneWord) →
      strTrim line ∈ privateSurvivors (some t) := by
    intro t line hline hkeep hc
    rw [hpos t hc]
    exact List.mem_map.mpr ⟨line, List.mem_filter.mpr ⟨hline, hkeep⟩, rfl⟩
  refine ⟨?_, ?_, ?_, ?_⟩
  · intro k hk
    rw [user_knowledge_of_update] at hk
    rcases List.mem_append.mp hk with h | h
    · exact Or.inl h
    · exact Or.inr (hsurv _ _ h)
  · intro k hk
    rw [assistant_knowledge_of_update] at hk
    rcases List.mem_append.mp hk with h | h
    · exact Or.inl h
    · exact Or.inr (hsurv _ _ h)
  · intro t ht hne hlow line hline hkeep
    rw [user_knowledge_of_update, ht]
    exact List.mem_append.mpr (Or.inr (hmem t line hline hkeep ⟨hne, hlow⟩))
  · intro t ht hne hlow line hline hkeep
    rw [assistant_knowledge_of_update, ht]
    exact List.mem_append.mpr (Or.inr (hmem t line hline hkeep ⟨hne, hlow⟩))

def c6ltm : LongTermMemory :=
  { profiles := [], user_knowledge := [], assistant_knowledge := [] }

/-- The line `"none."`: lowercase equal to `"none"` up to a trailing period,
with no leading bullet. -/
def noneDot : String := noneWord ++ "."

def c6analysis : AnalysisResult :=
  { profile := none, private_knowledge := some noneDot, assistant_knowledge := none }

/-- C6 counterexample: the claim says a line equal case-insensitively to
`"none"` with or without a leading bullet and/or trailing period is never
persisted; but the private text `"none."` (trailing period, no bullet) IS
persisted as a knowledge item, because the code's exclusion list holds only
`"none"`, `"- none"`, `"- none."`. -/
theorem C6_counterexample :
    (update_long_term_from_analysis ("u") (some c6analysis) c6ltm).user_knowledge
      = [noneDot] ∧ strLower noneDot = noneWord ++ "." := by
  decide

def c6wText : String := "item A"

def c6wAnalysis : AnalysisResult :=
  { profile := none, private_knowledge := some c6wText, assistant_knowledge := none }

theorem C6_thm_witness :
    strTrim c6wText ∈
      (update_long_term_from_analysis ("u") (some c6wAnalysis) c6ltm).user_knowledge :=
  (C6_thm ("u") c6wAnalysis c6ltm).2.2.1 c6wText rfl (by decide) (by decide)
    c6wText (by decide) (by decide)

def c7ltm : LongTermMemory :=
  { profiles := [("u", "orig")], user_knowledge := [], assistant_knowledge := [] }

def c7text : String := "- item A" ++ newlineSep ++ "- none"

def c7analysis : AnalysisResult :=
  { profile := some ("None"), private_knowledge := some c7text, assistant_knowledge := none }

def c7result : LongTermMemory :=
  update_long_term_from_analysis ("u") (some c7analysis) c7ltm

/-- C7 counterexample: for analysis `{profile: "None", private: "- item A\n- none"}`
exactly one knowledge item is added, but its text is the stripped raw line
`"- item A"` (the leading bullet is not removed), not `"item A"` as the
claim states. -/
theorem C7_counterexample :
    c7result.user_knowledge.length = 1 ∧ ¬ (("item A") ∈ c7result.user_knowledge) := by
  decide

/-- C7 (amended): for that call the stored user profile is unchanged (the
profile text `"None"` is rejected by the case-insensitive guard) and exactly
one knowledge item is added, whose text is the stripped line `"- item A"`
(leading bullet retained); the `"- none"` line is discarded. -/
theorem C7_thm :
    c7result.profiles = c7ltm.profiles ∧
    c7result.user_knowledge = ["- item A"] ∧
    c7result.assistant_knowledge = [] := by
  decide

/-- C4: if both `page_embedding` and `page_keywords` are already set (truthy),
`_process_page_embedding_and_keywords` returns the page unchanged and
schedules no collaborator task; more generally an attribute that is already
set is never recomputed — no task for it is scheduled and its value is
untouched. -/
theorem C4_thm (ge : String → Except Unit (List Int))
    (ek : String → Except Unit (List String)) (nv : List Int → List Int) (p : Page) :
    (truthyEmb p.page_embedding = true → truthyKw p.page_keywords = true →
       process_page_embedding_and_keywords ge ek nv p = (p, [])) ∧
    (truthyEmb p.page_embedding = true →
       TaskType.embedding ∉ (process_page_embedding_and_keywords ge ek nv p).2 ∧
       (process_page_embedding_and_keywords ge ek nv p).1.page_embedding = p.page_embedding) ∧
    (truthyKw p.page_keywords = true →
       TaskType.keywords ∉ (process_page_embedding_and_keywords ge ek nv p).2 ∧
       (process_page_embedding_and_keywords ge ek nv p).1.page_keywords = p.page_keywords) := by
  refine ⟨?_, ?_, ?_⟩
  · intro hE hK
    simp [process_page_embedding_and_keywords, hE, hK]
  · intro hE
    by_cases hK : truthyKw p.page_keywords
    · simp [process_page_embedding_and_keywords, hE, hK]
    · cases hek : (ek (fullTextOf p)).toOption with
      | none => simp [process_page_embedding_and_keywords, hE, hK, hek]
      | some k => simp [process_page_embedding_and_keywords, hE, hK, hek]
  · intro hK
    by_cases hE : truthyEmb p.page_embedding
    · simp [process_page_embedding_and_keywords, hE, hK]
    · cases heg : (ge (fullTextOf p)).toOption with
      | none => simp [process_page_embedding_and_keywords, hE, hK, heg]
      | some v => simp [process_page_embedding_and_keywords, hE, hK, heg]

/-- C5: when both computations are scheduled, a raised exception in one of
them leaves its attribute unset while the successful sibling still stores its
result (embedding normalized, keywords listed). -/
theorem C5_thm (ge : String → Except Unit (List Int))
    (ek : String → Except Unit (List String)) (nv : List Int → List Int) (p : Page)
    (v : List Int) (k : List String)
    (hE : truthyEmb p.page_embedding = false) (hK : truthyKw p.page_keywords = false) :
    (ge (fullTextOf p) = .error () → ek (fullTextOf p) = .ok k →
       (process_page_embedding_and_keywords ge ek nv p).1.page_embedding = p.page_embedding ∧
       (process_page_embedding_and_keywords ge ek nv p).1.page_keywords = some k ∧
       (process_page_embedding_and_keywords ge ek nv p).2
         = [TaskType.embedding, TaskType.keywords]) ∧
    (ge (fullTextOf p) = .ok v → ek (fullTextOf p) = .error () →
       (process_page_embedding_and_keywords ge ek nv p).1.page_embedding = some (nv v) ∧
       (process_page_embedding_and_keywords ge ek nv p).1.page_keywords = p.page_keywords) := by
  constructor
  · intro hge hek
    simp [process_page_embedding_and_keywords, hE, hK, hge, hek, Except.toOption]
  · intro hge hek
    simp [process_page_embedding_and_keywords, hE, hK, hge, hek, Except.toOption]

def c45page : Page :=
  { page_id := 1, user_input := "u", agent_response := "a", timestamp := 0,
    preloaded := false, analyzed := false, pre_page := none, next_page := none,
    meta_info := none, page_embedding := none, page_keywords := none }

def c4page : Page :=
  { c45page with page_embedding := some [1], page_keywords := some (["k"]) }

def geFail : String → Except Unit (List Int) := fun _ => .error ()

def ekConst : String → Except Unit (List String) := fun _ => .ok ["kw"]

def nvId : List Int → List Int := fun v => v

theorem C4_thm_witness :
    process_page_embedding_and_keywords geFail ekConst nvId c4page = (c4page, []) :=
  (C4_thm geFail ekConst nvId c4page).1 (by decide) (by decide)

theorem C5_thm_witness :
    (process_page_embedding_and_keywords geFail ekConst nvId c45page).1.page_embedding
        = c45page.page_embedding ∧
    (process_page_embedding_and_keywords geFail ekConst nvId c45page).1.page_keywords
        = some ["kw"] ∧
    (process_page_embedding_and_keywords geFail ekConst nvId c45page).2
        = [TaskType.embedding, TaskType.keywords] :=
  (C5_thm geFail ekConst nvId c45page [] (["kw"]) (by decide) (by decide)).1 rfl rfl

/-! C2 scenario: three evicted turns, continuity true for (T1,T2) and false
for (T2,T3), empty mid-term store and no carried-over cursor. -/

def c2qa1 : QA := { user_input := "u1", agent_response := "a1", timestamp := some 11 }

def c2qa2 : QA := { user_input := "u2", agent_response := "a2", timestamp := some 12 }

def c2qa3 : QA := { user_input := "u3", agent_response := "a3", timestamp := some 13 }

/-- Oracles realizing the C2 continuity pattern: the judgment is true exactly
for the (T1,T2) pair; each generated meta text is distinct (`"m" ++ input`). -/
def c2oracles : Oracles :=
  { check_continuity := fun prev page =>
      match prev with
      | some p => decide (p.user_input = "u1" ∧ page.user_input = "u2")
      | none => false,
    gen_meta := fun _ p => "m" ++ p.user_input,
    get_timestamp := 0,
    multi_summary := fun _ =>
      some { summaries := some [{ theme := some ("t"), content := some ("c"),
                                  keywords := some (["k"]) }] },
    extract_keywords := fun _ => [] }

def c2init : UState :=
  { stmQueue := [c2qa1, c2qa2, c2qa3], stmCapacity := 1, heap := [], mtm := [],
    insertCalls := [], connCalls := [], saves := 0, last_evicted := none, nextId := 1 }

def c2final : UState := resultState (process_short_term_to_mid_term c2oracles noRaise c2init)

/-- C2 counterexample: in the scenario run the linkage conjuncts do hold
(P2.pre_page = P1, P1.next_page = P2, P3.pre_page = none), but
P2.meta_info ≠ P1.meta_info — P1 is not yet persisted while the batch is being
built (insertion happens only after the loop), so the propagation at
updater.py line 147-148 is skipped and P1 keeps its own earlier meta info. -/
theorem C2_counterexample :
    ((heapGet c2final.heap 2).map (fun p => p.pre_page) = some (some 1)) ∧
    ((heapGet c2final.heap 1).map (fun p => p.next_page) = some (some 2)) ∧
    ((heapGet c2final.heap 3).map (fun p => p.pre_page) = some none) ∧
    ¬ ((heapGet c2final.heap 2).bind (fun p => p.meta_info)
        = (heapGet c2final.heap 1).bind (fun p => p.meta_info)) := by
  decide

/-- C2 (amended): after the run P1.next_page == P2.page_id, P2.pre_page ==
P1.page_id and P3.pre_page is null with freshly generated meta info; but
P2.meta_info is the meta info freshly generated from P1's meta info
(`gen_meta (some "mu1") P2 = "mu2"`), while P1 retains its own `"mu1"` —
the two are not equal, because an in-batch predecessor is not yet persisted
and no propagation occurs. -/
theorem C2_thm :
    ((heapGet c2final.heap 1).map (fun p => (p.pre_page, p.next_page, p.meta_info))
        = some (none, some 2, some ("mu1"))) ∧
    ((heapGet c2final.heap 2).map (fun p => (p.pre_page, p.next_page, p.meta_info))
        = some (some 1, none, some ("mu2"))) ∧
    ((heapGet c2final.heap 3).map (fun p => (p.pre_page, p.next_page, p.meta_info))
        = some (none, none, some ("mu3"))) ∧
    c2final.mtm = [1, 2, 3] ∧ c2final.connCalls = [(1, 2)] := by
  decide

/-! Frame and shape lemmas for the meta-propagation walk. -/

theorem get_page_by_id_spec (s : UState) (i : Nat) (p : Page)
    (hp : get_page_by_id s i = some p) : i ∈ s.mtm ∧ heapGet s.heap i = some p := by
  unfold get_page_by_id at hp
  by_cases hm : i ∈ s.mtm
  · rw [if_pos hm] at hp
    exact ⟨hm, hp⟩
  · rw [if_neg hm] at hp
    cases hp

/-- The walk only rewrites the heap: every other state field is untouched. -/
theorem bfsProp_frame (m : String) (fuel : Nat) :
    ∀ (q visited : List Nat) (s : UState),
      (bfsProp m fuel q visited s).stmQueue = s.stmQueue ∧
      (bfsProp m fuel q visited s).stmCapacity = s.stmCapacity ∧
      (bfsProp m fuel q visited s).mtm = s.mtm ∧
      (bfsProp m fuel q visited s).insertCalls = s.insertCalls ∧
      (bfsProp m fuel q visited s).connCalls = s.connCalls ∧
      (bfsProp m fuel q visited s).saves = s.saves ∧
      (bfsProp m fuel q visited s).last_evicted = s.last_evicted ∧
      (bfsProp m fuel q visited s).nextId = s.nextId := by
  induction fuel with
  | zero =>
      intro q v s
      simp [bfsProp]
  | succ fuel ih =>
      intro q v s
      match q with
      | [] => simp [bfsProp]
      | j :: q' =>
        cases hp : get_page_by_id s j with
        | none =>
            simp only [bfsProp, hp]
            exact ih q' v s
        | some p =>
            simp only [bfsProp, hp]
            exact ih (enqueue p.next_page (enqueue p.pre_page (q', v))).1
              (enqueue p.next_page (enqueue p.pre_page (q', v))).2
              { s with heap := heapSet s.heap j { p with meta_info := some m } }

/-- Every heap entry is either untouched by the walk or overwritten with the
same page carrying the propagated meta info. -/
theorem bfsProp_shape (m : String) (fuel : Nat) :
    ∀ (q visited : List Nat) (s : UState) (i : Nat),
      heapGet (bfsProp m fuel q visited s).heap i = heapGet s.heap i ∨
      ∃ p, heapGet s.heap i = some p ∧
        heapGet (bfsProp m fuel q visited s).heap i
          = some { p with meta_info := some m } := by
  induction fuel with
  | zero =>
      intro q v s i
      left
      simp [bfsProp]
  | succ fuel ih =>
      intro q v s i
      match q with
      | [] =>
        left
        simp [bfsProp]
      | j :: q' =>
        cases hp : get_page_by_id s j with
        | none =>
            simp only [bfsProp, hp]
            exact ih q' v s i
        | some p =>
          simp only [bfsProp, hp]
          have hq : heapGet s.heap j = some p := (get_page_by_id_spec s j p hp).2
          rcases ih (enqueue p.next_page (enqueue p.pre_page (q', v))).1
              (enqueue p.next_page (enqueue p.pre_page (q', v))).2
              { s with heap := heapSet s.heap j { p with meta_info := some m } } i
            with h | ⟨p1, hp1, hp2⟩
          · by_cases hij : i = j
            · subst hij
              right
              exact ⟨p, hq, by rw [h]; exact heapGet_heapSet_eq _ _ _⟩
            · left
              rw [h]
              exact heapGet_heapSet_ne _ _ _ _ hij
          · by_cases hij : i = j
            · subst hij
              have hp1a : heapGet (heapSet s.heap i { p with meta_info := some m }) i
                  = some p1 := hp1
              rw [heapGet_heapSet_eq] at hp1a
              have hpp : p1 = { p with meta_info := some m } := (Option.some.inj hp1a).symm
              subst hpp
              right
              exact ⟨p, hq, hp2⟩
            · have hp1a : heapGet (heapSet s.heap j { p with meta_info := some m }) i
                  = some p1 := hp1
              rw [heapGet_heapSet_ne _ _ _ _ hij] at hp1a
              exact Or.inr ⟨p1, hp1a, hp2⟩

/-- Once an entry already carries the propagated meta info, the walk keeps it. -/
theorem bfsProp_meta_fixed (m : String) (fuel : Nat) (q visited : List Nat)
    (s : UState) (i : Nat) (p : Page)
    (hp : heapGet s.heap i = some p) (hm : p.meta_info = some m) :
    ∃ p2, heapGet (bfsProp m fuel q visited s).heap i = some p2 ∧
      p2.meta_info = some m := by
  rcases bfsProp_shape m fuel q visited s i with h | ⟨p1, _, hp2⟩
  · exact ⟨p, by rw [h, hp], hm⟩
  · exact ⟨{ p1 with meta_info := some m }, hp2, rfl⟩

/-- Pages the store does not hold are never rewritten by the walk. -/
theorem bfsProp_not_mtm (m : String) (fuel : Nat) :
    ∀ (q visited : List Nat) (s : UState) (i : Nat), i ∉ s.mtm →
      heapGet (bfsProp m fuel q visited s).heap i = heapGet s.heap i := by
  induction fuel with
  | zero =>
      intro q v s i _
      simp [bfsProp]
  | succ fuel ih =>
      intro q v s i hi
      match q with
      | [] => simp [bfsProp]
      | j :: q' =>
        cases hp : get_page_by_id s j with
        | none =>
            simp only [bfsProp, hp]
            exact ih q' v s i hi
        | some p =>
          simp only [bfsProp, hp]
          have hj : j ∈ s.mtm := (get_page_by_id_spec s j p hp).1
          have hij : i ≠ j := fun hc => hi (hc ▸ hj)
          rw [ih (enqueue p.next_page (enqueue p.pre_page (q', v))).1
              (enqueue p.next_page (enqueue p.pre_page (q', v))).2
              { s with heap := heapSet s.heap j { p with meta_info := some m } } i hi]
          exact heapGet_heapSet_ne _ _ _ _ hij

/-- `_update_linked_pages_meta_info` writes the new meta info to the start
page whenever the store holds it. -/
theorem update_linked_sets_start (s : UState) (i : Nat) (m : String) (p : Page)
    (hp : get_page_by_id s i = some p) :
    ∃ p2, heapGet (update_linked_pages_meta_info s i m).heap i = some p2 ∧
      p2.meta_info = some m := by
  unfold update_linked_pages_meta_info
  rw [show 2 * s.heap.length + 2 = (2 * s.heap.length + 1) + 1 from rfl]
  simp only [bfsProp, hp]
  exact bfsProp_meta_fixed m _ _ _ _ i { p with meta_info := some m }
    (heapGet_heapSet_eq _ _ _) rfl

theorem update_linked_frame (s : UState) (i : Nat) (m : String) :
    (update_linked_pages_meta_info s i m).stmQueue = s.stmQueue ∧
    (update_linked_pages_meta_info s i m).stmCapacity = s.stmCapacity ∧
    (update_linked_pages_meta_info s i m).mtm = s.mtm ∧
    (update_linked_pages_meta_info s i m).insertCalls = s.insertCalls ∧
    (update_linked_pages_meta_info s i m).connCalls = s.connCalls ∧
    (update_linked_pages_meta_info s i m).saves = s.saves + 1 ∧
    (update_linked_pages_meta_info s i m).last_evicted = s.last_evicted ∧
    (update_linked_pages_meta_info s i m).nextId = s.nextId := by
  unfold update_linked_pages_meta_info
  have h := bfsProp_frame m (2 * s.heap.length + 2) [i] [i] s
  refine ⟨h.1, h.2.1, h.2.2.1, h.2.2.2.1, h.2.2.2.2.1, ?_,
    h.2.2.2.2.2.2.1, h.2.2.2.2.2.2.2⟩
  show (bfsProp m (2 * s.heap.length + 2) [i] [i] s).saves + 1 = s.saves + 1
  rw [h.2.2.2.2.2.1]

theorem update_linked_not_mtm (s : UState) (i : Nat) (m : String) (j : Nat)
    (hj : j ∉ s.mtm) :
    heapGet (update_linked_pages_meta_info s i m).heap j = heapGet s.heap j := by
  unfold update_linked_pages_meta_info
  exact bfsProp_not_mtm m _ _ _ s j hj

/-! Well-formedness of a process state, and lemmas about one build step. -/

theorem heapGet_some_mem (h : List (Nat × Page)) (i : Nat) (p : Page)
    (hp : heapGet h i = some p) : (i, p) ∈ h := by
  induction h with
  | nil => cases hp
  | cons e rest ih =>
      rcases e with ⟨k, v⟩
      by_cases he : k = i
      · subst he
        simp [heapGet] at hp
        subst hp
        exact List.mem_cons_self _ _
      · simp only [heapGet, he, if_false] at hp
        exact List.mem_cons_of_mem _ (ih hp)

/-- State well-formedness: every heap key is below the id counter, every page
the store holds is in the heap, and the continuity cursor (if set) points
below the id counter. -/
def WFb (s : UState) : Bool :=
  s.heap.all (fun e => decide (e.1 < s.nextId)) &&
  s.mtm.all (fun i => (heapGet s.heap i).isSome) &&
  (match s.last_evicted with
   | some l => decide (l < s.nextId)
   | none => true)

theorem WFb_spec (s : UState) (h : WFb s = true) :
    (∀ e ∈ s.heap, e.1 < s.nextId) ∧
    (∀ i ∈ s.mtm, (heapGet s.heap i).isSome = true) ∧
    (∀ l, s.last_evicted = some l → l < s.nextId) := by
  unfold WFb at h
  rw [Bool.and_eq_true, Bool.and_eq_true] at h
  refine ⟨?_, ?_, ?_⟩
  · intro e he
    have := List.all_eq_true.mp h.1.1 e he
    exact of_decide_eq_true this
  · intro i hi
    exact List.all_eq_true.mp h.1.2 i hi
  · intro l hl
    rw [hl] at h
    exact of_decide_eq_true h.2

theorem WFb_of_parts (s : UState)
    (h1 : ∀ e ∈ s.heap, e.1 < s.nextId)
    (h2 : ∀ i ∈ s.mtm, (heapGet s.heap i).isSome = true)
    (h3 : ∀ l, s.last_evicted = some l → l < s.nextId) : WFb s = true := by
  unfold WFb
  rw [Bool.and_eq_true, Bool.and_eq_true]
  refine ⟨⟨?_, ?_⟩, ?_⟩
  · exact List.all_eq_true.mpr (fun e he => decide_eq_true (h1 e he))
  · exact List.all_eq_true.mpr (fun i hi => h2 i hi)
  · cases hl : s.last_evicted with
    | none => rfl
    | some l => exact decide_eq_true (h3 l hl)

theorem WFb_nextId_not_mtm (s : UState) (h : WFb s = true) : s.nextId ∉ s.mtm := by
  intro hmem
  have h2 := (WFb_spec s h).2.1 s.nextId hmem
  cases hp : heapGet s.heap s.nextId with
  | none => rw [hp] at h2; cases h2
  | some p =>
      have hm := heapGet_some_mem s.heap s.nextId p hp
      have := (WFb_spec s h).1 (s.nextId, p) hm
      exact absurd this (lt_irrefl _)

/-- Heap keys surviving the walk come from the original heap. -/
theorem bfsProp_keys (m : String) (fuel : Nat) :
    ∀ (q visited : List Nat) (s : UState) (e : Nat × Page),
      e ∈ (bfsProp m fuel q visited s).heap → ∃ e0 ∈ s.heap, e0.1 = e.1 := by
  induction fuel with
  | zero =>
      intro q v s e he
      exact ⟨e, by simpa [bfsProp] using he, rfl⟩
  | succ fuel ih =>
      intro q v s e he
      match q with
      | [] => exact ⟨e, by simpa [bfsProp] using he, rfl⟩
      | j :: q' =>
        cases hp : get_page_by_id s j with
        | none =>
            rw [show bfsProp m (fuel + 1) (j :: q') v s = bfsProp m fuel q' v s from by
              simp [bfsProp, hp]] at he
            exact ih q' v s e he
        | some p =>
            rw [show bfsProp m (fuel + 1) (j :: q') v s
                  = bfsProp m fuel (enqueue p.next_page (enqueue p.pre_page (q', v))).1
                      (enqueue p.next_page (enqueue p.pre_page (q', v))).2
                      { s with heap := heapSet s.heap j { p with meta_info := some m } } from by
              simp [bfsProp, hp]] at he
            obtain ⟨e1, he1, hk⟩ := ih _ _ _ e he
            rcases mem_heapSet s.heap j { p with meta_info := some m } e1 he1 with h1 | h1
            · have hq := heapGet_some_mem s.heap j p (get_page_by_id_spec s j p hp).2
              exact ⟨(j, p), hq, by rw [← hk, h1]⟩
            · exact ⟨e1, h1, hk⟩

theorem update_linked_keys (s : UState) (i : Nat) (m : String) (e : Nat × Page)
    (he : e ∈ (update_linked_pages_meta_info s i m).heap) :
    ∃ e0 ∈ s.heap, e0.1 = e.1 := by
  unfold update_linked_pages_meta_info at he
  exact bfsProp_keys m _ _ _ s e he

theorem update_linked_shape (s : UState) (i : Nat) (m : String) (j : Nat) :
    heapGet (update_linked_pages_meta_info s i m).heap j = heapGet s.heap j ∨
    ∃ p, heapGet s.heap j = some p ∧
      heapGet (update_linked_pages_meta_info s i m).heap j
        = some { p with meta_info := some m } := by
  unfold update_linked_pages_meta_info
  exact bfsProp_shape m _ _ _ s j

theorem contState_heap_new (o : Oracles) (s : UState) (lastId : Nat) (qa : QA) :
    heapGet (contState o s lastId qa).heap s.nextId = some (contPage o s lastId qa) :=
  heapGet_heapSet_eq _ _ _

theorem contState_heap_old (o : Oracles) (s : UState) (lastId : Nat) (qa : QA)
    (i : Nat) (hne : i ≠ s.nextId) :
    heapGet (contState o s lastId qa).heap i = heapGet s.heap i := by
  show heapGet (heapSet (heapSet s.heap s.nextId (freshPage o s qa)) s.nextId
      (contPage o s lastId qa)) i = heapGet s.heap i
  rw [heapGet_heapSet_ne _ _ _ _ hne, heapGet_heapSet_ne _ _ _ _ hne]

theorem freshMetaState_heap_new (o : Oracles) (s : UState) (qa : QA) :
    heapGet (freshMetaState o s qa).heap s.nextId = some (freshMetaPage o s qa) :=
  heapGet_heapSet_eq _ _ _

theorem freshMetaState_heap_old (o : Oracles) (s : UState) (qa : QA)
    (i : Nat) (hne : i ≠ s.nextId) :
    heapGet (freshMetaState o s qa).heap i = heapGet s.heap i := by
  show heapGet (heapSet (heapSet s.heap s.nextId (freshPage o s qa)) s.nextId
      (freshMetaPage o s qa)) i = heapGet s.heap i
  rw [heapGet_heapSet_ne _ _ _ _ hne, heapGet_heapSet_ne _ _ _ _ hne]

theorem buildStep_some (o : Oracles) (s : UState) (lastId : Nat) (qa : QA) :
    buildStep o s (some lastId) qa
      = if o.check_continuity (heapGet s.heap lastId) (freshPage o s qa) then
          if (get_page_by_id (contState o s lastId qa) lastId).isSome then
            (update_linked_pages_meta_info (contState o s lastId qa) lastId
               (newMetaOf o s lastId qa), s.nextId)
          else (contState o s lastId qa, s.nextId)
        else (freshMetaState o s qa, s.nextId) := rfl

theorem buildStep_none (o : Oracles) (s : UState) (qa : QA) :
    buildStep o s none qa = (freshMetaState o s qa, s.nextId) := rfl

theorem buildStep_pid (o : Oracles) (s : UState) (tempLast : Option Nat) (qa : QA) :
    (buildStep o s tempLast qa).2 = s.nextId := by
  cases tempLast with
  | none => rfl
  | some lastId =>
      rw [buildStep_some]
      split
      · split <;> rfl
      · rfl

theorem buildStep_nextId (o : Oracles) (s : UState) (tempLast : Option Nat) (qa : QA) :
    (buildStep o s tempLast qa).1.nextId = s.nextId + 1 := by
  cases tempLast with
  | none => rfl
  | some lastId =>
      rw [buildStep_some]
      split
      · split
        · show (update_linked_pages_meta_info (contState o s lastId qa) lastId
              (newMetaOf o s lastId qa)).nextId = s.nextId + 1
          rw [(update_linked_frame _ _ _).2.2.2.2.2.2.2]
          rfl
        · rfl
      · rfl

theorem buildStep_frame (o : Oracles) (s : UState) (tempLast : Option Nat) (qa : QA) :
    (buildStep o s tempLast qa).1.stmQueue = s.stmQueue ∧
    (buildStep o s tempLast qa).1.stmCapacity = s.stmCapacity ∧
    (buildStep o s tempLast qa).1.mtm = s.mtm ∧
    (buildStep o s tempLast qa).1.insertCalls = s.insertCalls ∧
    (buildStep o s tempLast qa).1.connCalls = s.connCalls ∧
    (buildStep o s tempLast qa).1.last_evicted = s.last_evicted := by
  cases tempLast with
  | none => exact ⟨rfl, rfl, rfl, rfl, rfl, rfl⟩
  | some lastId =>
      rw [buildStep_some]
      split
      · split
        · exact ⟨(update_linked_frame _ _ _).1, (update_linked_frame _ _ _).2.1,
            (update_linked_frame _ _ _).2.2.1, (update_linked_frame _ _ _).2.2.2.1,
            (update_linked_frame _ _ _).2.2.2.2.1,
            (update_linked_frame _ _ _).2.2.2.2.2.2.1⟩
        · exact ⟨rfl, rfl, rfl, rfl, rfl, rfl⟩
      · exact ⟨rfl, rfl, rfl, rfl, rfl, rfl⟩

theorem buildStep_new (o : Oracles) (s : UState) (tempLast : Option Nat) (qa : QA)
    (hmtm : s.nextId ∉ s.mtm) :
    ∃ p, heapGet (buildStep o s tempLast qa).1.heap s.nextId = some p ∧
      p.page_id = s.nextId ∧ p.next_page = none ∧
      (p.pre_page = none ∨ p.pre_page = tempLast) := by
  cases tempLast with
  | none =>
      exact ⟨freshMetaPage o s qa, freshMetaState_heap_new o s qa, rfl, rfl, Or.inl rfl⟩
  | some lastId =>
      rw [buildStep_some]
      split
      · split
        · refine ⟨contPage o s lastId qa, ?_, rfl, rfl, Or.inr rfl⟩
          show heapGet (update_linked_pages_meta_info (contState o s lastId qa) lastId
              (newMetaOf o s lastId qa)).heap s.nextId = some (contPage o s lastId qa)
          rw [update_linked_not_mtm (contState o s lastId qa) lastId
              (newMetaOf o s lastId qa) s.nextId hmtm]
          exact contState_heap_new o s lastId qa
        · exact ⟨contPage o s lastId qa, contState_heap_new o s lastId qa, rfl, rfl,
            Or.inr rfl⟩
      · exact ⟨freshMetaPage o s qa, freshMetaState_heap_new o s qa, rfl, rfl, Or.inl rfl⟩

theorem buildStep_shape (o : Oracles) (s : UState) (tempLast : Option Nat) (qa : QA)
    (i : Nat) (hne : i ≠ s.nextId) :
    heapGet (buildStep o s tempLast qa).1.heap i = heapGet s.heap i ∨
    ∃ p m2, heapGet s.heap i = some p ∧
      heapGet (buildStep o s tempLast qa).1.heap i
        = some { p with meta_info := some m2 } := by
  cases tempLast with
  | none =>
      left
      exact freshMetaState_heap_old o s qa i hne
  | some lastId =>
      rw [buildStep_some]
      split
      · split
        · rcases update_linked_shape (contState o s lastId qa) lastId
              (newMetaOf o s lastId qa) i with h | ⟨p, hp, h2⟩
          · left
            show heapGet (update_linked_pages_meta_info (contState o s lastId qa) lastId
                (newMetaOf o s lastId qa)).heap i = heapGet s.heap i
            rw [h]
            exact contState_heap_old o s lastId qa i hne
          · right
            refine ⟨p, newMetaOf o s lastId qa, ?_, h2⟩
            rw [← contState_heap_old o s lastId qa i hne]
            exact hp
        · left
          exact contState_heap_old o s lastId qa i hne
      · left
        exact freshMetaState_heap_old o s qa i hne

theorem buildStep_keys (o : Oracles) (s : UState) (tempLast : Option Nat) (qa : QA)
    (hk : ∀ e ∈ s.heap, e.1 < s.nextId) :
    ∀ e ∈ (buildStep o s tempLast qa).1.heap, e.1 < s.nextId + 1 := by
  have hbase : ∀ (pg pg2 : Page) (e : Nat × Page),
      e ∈ heapSet (heapSet s.heap s.nextId pg) s.nextId pg2 → e.1 < s.nextId + 1 := by
    intro pg pg2 e he
    rcases mem_heapSet _ _ _ _ he with h | h
    · exact h ▸ Nat.lt_succ_self _
    · rcases mem_heapSet _ _ _ _ h with h1 | h1
      · exact h1 ▸ Nat.lt_succ_self _
      · exact Nat.lt_succ_of_lt (hk e h1)
  cases tempLast with
  | none => exact fun e he => hbase _ _ e he
  | some lastId =>
      rw [buildStep_some]
      split
      · split
        · intro e he
          obtain ⟨e0, he0, hk0⟩ := update_linked_keys _ _ _ e he
          rw [← hk0]
          exact hbase _ _ e0 he0
        · exact fun e he => hbase _ _ e he
      · exact fun e he => hbase _ _ e he

theorem buildStep_mtm_some (o : Oracles) (s : UState) (tempLast : Option Nat) (qa : QA)
    (hk : ∀ e ∈ s.heap, e.1 < s.nextId)
    (hm : ∀ i ∈ s.mtm, (heapGet s.heap i).isSome = true) :
    ∀ i ∈ s.mtm, (heapGet (buildStep o s tempLast qa).1.heap i).isSome = true := by
  intro i hi
  have hne : i ≠ s.nextId := by
    intro hc
    have hsome := hm i hi
    cases hp : heapGet s.heap i with
    | none => rw [hp] at hsome; cases hsome
    | some p =>
        have hmem := heapGet_some_mem _ _ _ hp
        have hlt := hk _ hmem
        rw [hc] at hlt
        exact absurd hlt (lt_irrefl _)
  rcases buildStep_shape o s tempLast qa i hne with h | ⟨p, m2, hp, h2⟩
  · rw [h]
    exact hm i hi
  · rw [h2]
    rfl

theorem buildStep_WF (o : Oracles) (s : UState) (tempLast : Option Nat) (qa : QA)
    (h : WFb s = true) : WFb (buildStep o s tempLast qa).1 = true := by
  obtain ⟨h1, h2, h3⟩ := WFb_spec s h
  apply WFb_of_parts
  · rw [buildStep_nextId]
    exact buildStep_keys o s tempLast qa h1
  · rw [(buildStep_frame o s tempLast qa).2.2.1]
    exact buildStep_mtm_some o s tempLast qa h1 h2
  · intro l hl
    rw [(buildStep_frame o s tempLast qa).2.2.2.2.2] at hl
    rw [buildStep_nextId]
    exact Nat.lt_succ_of_lt (h3 l hl)

/-- C1: in a batch run of `process_short_term_to_mid_term`, if the continuity
judgment for the pair (prev, curr) returns true and prev is persisted in the
mid-term store (`get_page_by_id` finds its id), then after meta-info
propagation the current page's `pre_page` equals prev's `page_id` and its
`meta_info` equals prev's `meta_info`, both being the newly generated
meta-info (`newMetaOf`).  Stated on `buildStep`, the per-pair iteration of the
batch loop, for any well-formed state. -/
theorem C1_thm (o : Oracles) (s : UState) (qa : QA) (lastId : Nat) (prev : Page)
    (hWF : WFb s = true)
    (hprev : get_page_by_id s lastId = some prev)
    (hcont : o.check_continuity (some prev) (freshPage o s qa) = true) :
    ∃ pNew pPrev,
      heapGet (buildStep o s (some lastId) qa).1.heap s.nextId = some pNew ∧
      get_page_by_id (buildStep o s (some lastId) qa).1 lastId = some pPrev ∧
      pNew.pre_page = some lastId ∧
      pNew.meta_info = some (newMetaOf o s lastId qa) ∧
      pPrev.meta_info = some (newMetaOf o s lastId qa) := by
  obtain ⟨hmem, hheap⟩ := get_page_by_id_spec s lastId prev hprev
  have hmtm : s.nextId ∉ s.mtm := WFb_nextId_not_mtm s hWF
  have hlastlt : lastId < s.nextId :=
    (WFb_spec s hWF).1 (lastId, prev) (heapGet_some_mem _ _ _ hheap)
  have hne : lastId ≠ s.nextId := Nat.ne_of_lt hlastlt
  have hcont2 : o.check_continuity (heapGet s.heap lastId) (freshPage o s qa) = true := by
    rw [hheap]
    exact hcont
  have hpers : get_page_by_id (contState o s lastId qa) lastId = some prev := by
    show (if lastId ∈ (contState o s lastId qa).mtm
          then heapGet (contState o s lastId qa).heap lastId else none) = some prev
    rw [if_pos (show lastId ∈ (contState o s lastId qa).mtm from hmem)]
    rw [contState_heap_old o s lastId qa lastId hne]
    exact hheap
  rw [buildStep_some, if_pos hcont2,
    if_pos (show (get_page_by_id (contState o s lastId qa) lastId).isSome = true from by
      rw [hpers]; rfl)]
  obtain ⟨p2, hp2, hp2m⟩ := update_linked_sets_start (contState o s lastId qa) lastId
    (newMetaOf o s lastId qa) prev hpers
  refine ⟨contPage o s lastId qa, p2, ?_, ?_, rfl, rfl, hp2m⟩
  · show heapGet (update_linked_pages_meta_info (contState o s lastId qa) lastId
        (newMetaOf o s lastId qa)).heap s.nextId = some (contPage o s lastId qa)
    rw [update_linked_not_mtm (contState o s lastId qa) lastId (newMetaOf o s lastId qa)
      s.nextId hmtm]
    exact contState_heap_new o s lastId qa
  · have hmemU : lastId ∈ (update_linked_pages_meta_info (contState o s lastId qa) lastId
        (newMetaOf o s lastId qa)).mtm := by
      rw [(update_linked_frame _ _ _).2.2.1]
      exact hmem
    show (if lastId ∈ (update_linked_pages_meta_info (contState o s lastId qa) lastId
            (newMetaOf o s lastId qa)).mtm
          then heapGet (update_linked_pages_meta_info (contState o s lastId qa) lastId
            (newMetaOf o s lastId qa)).heap lastId
          else none) = some p2
    rw [if_pos hmemU]
    exact hp2

def c1prev : Page :=
  { page_id := 1, user_input := "pu", agent_response := "pa", timestamp := 5,
    preloaded := false, analyzed := false, pre_page := none, next_page := none,
    meta_info := some ("pm"), page_embedding := none, page_keywords := none }

def c1state : UState :=
  { stmQueue := [], stmCapacity := 1, heap := [(1, c1prev)], mtm := [1],
    insertCalls := [], connCalls := [], saves := 0, last_evicted := some 1, nextId := 2 }

def c1oracles : Oracles :=
  { check_continuity := fun _ _ => true, gen_meta := fun _ _ => "M",
    get_timestamp := 0, multi_summary := fun _ => none, extract_keywords := fun _ => [] }

def c1qa : QA := { user_input := "u", agent_response := "a", timestamp := some 7 }

theorem C1_thm_witness :
    ∃ pNew pPrev,
      heapGet (buildStep c1oracles c1state (some 1) c1qa).1.heap c1state.nextId
        = some pNew ∧
      get_page_by_id (buildStep c1oracles c1state (some 1) c1qa).1 1 = some pPrev ∧
      pNew.pre_page = some 1 ∧
      pNew.meta_info = some (newMetaOf c1oracles c1state 1 c1qa) ∧
      pPrev.meta_info = some (newMetaOf c1oracles c1state 1 c1qa) :=
  C1_thm c1oracles c1state c1qa 1 c1prev (by decide) (by decide) (by decide)

/-- Everything the remaining claims need about the whole page-building loop:
the batch ids are the consecutive fresh ids, the loop preserves
well-formedness and the non-heap state fields, every built page has
`page_id = key`, `next_page = none` and a strictly smaller `pre_page` (if
any), and pre-existing heap entries change at most in their `meta_info`. -/
theorem buildLoop_spec (o : Oracles) (qas : List QA) :
    ∀ (s : UState) (tempLast : Option Nat) (acc : List Nat),
      WFb s = true →
      (∀ l, tempLast = some l → l < s.nextId) →
      (buildLoop o qas s tempLast acc).2 = acc ++ List.range' s.nextId qas.length ∧
      (buildLoop o qas s tempLast acc).1.nextId = s.nextId + qas.length ∧
      WFb (buildLoop o qas s tempLast acc).1 = true ∧
      (buildLoop o qas s tempLast acc).1.stmQueue = s.stmQueue ∧
      (buildLoop o qas s tempLast acc).1.stmCapacity = s.stmCapacity ∧
      (buildLoop o qas s tempLast acc).1.mtm = s.mtm ∧
      (buildLoop o qas s tempLast acc).1.insertCalls = s.insertCalls ∧
      (buildLoop o qas s tempLast acc).1.connCalls = s.connCalls ∧
      (buildLoop o qas s tempLast acc).1.last_evicted = s.last_evicted ∧
      (∀ pid ∈ List.range' s.nextId qas.length,
        ∃ p, heapGet (buildLoop o qas s tempLast acc).1.heap pid = some p ∧
          p.page_id = pid ∧ p.next_page = none ∧
          (p.pre_page = none ∨ ∃ l, p.pre_page = some l ∧ l < pid)) ∧
      (∀ i, i < s.nextId →
        heapGet (buildLoop o qas s tempLast acc).1.heap i = heapGet s.heap i ∨
        ∃ p m2, heapGet s.heap i = some p ∧
          heapGet (buildLoop o qas s tempLast acc).1.heap i
            = some { p with meta_info := some m2 }) := by
  induction qas with
  | nil =>
      intro s tempLast acc hWF _
      refine ⟨by simp [buildLoop], by simp [buildLoop], hWF, rfl, rfl, rfl, rfl, rfl, rfl,
        ?_, ?_⟩
      · intro pid hpid
        simp [List.range'] at hpid
      · intro i _
        exact Or.inl rfl
  | cons qa rest ih =>
      intro s tempLast acc hWF hcur
      have hWF1 : WFb (buildStep o s tempLast qa).1 = true := buildStep_WF o s tempLast qa hWF
      have hframe := buildStep_frame o s tempLast qa
      have hnext : (buildStep o s tempLast qa).1.nextId = s.nextId + 1 :=
        buildStep_nextId o s tempLast qa
      have hpid0 : (buildStep o s tempLast qa).2 = s.nextId := buildStep_pid o s tempLast qa
      have hcur1 : ∀ l, some (buildStep o s tempLast qa).2 = some l →
          l < (buildStep o s tempLast qa).1.nextId := by
        intro l hl
        injection hl with hl
        rw [← hl, hpid0, hnext]
        exact Nat.lt_succ_self _
      obtain ⟨ih1, ih2, ih3, ih4, ih5, ih6, ih7, ih8, ih9, ih10, ih11⟩ :=
        ih (buildStep o s tempLast qa).1 (some (buildStep o s tempLast qa).2)
          (acc ++ [(buildStep o s tempLast qa).2]) hWF1 hcur1
      have heq : buildLoop o (qa :: rest) s tempLast acc
          = buildLoop o rest (buildStep o s tempLast qa).1
              (some (buildStep o s tempLast qa).2)
              (acc ++ [(buildStep o s tempLast qa).2]) := rfl
      rw [heq]
      have hrange : List.range' s.nextId (qa :: rest).length
          = s.nextId :: List.range' (s.nextId + 1) rest.length := rfl
      refine ⟨?_, ?_, ih3, ih4.trans hframe.1, ih5.trans hframe.2.1,
        ih6.trans hframe.2.2.1, ih7.trans hframe.2.2.2.1, ih8.trans hframe.2.2.2.2.1,
        ih9.trans hframe.2.2.2.2.2, ?_, ?_⟩
      · rw [ih1, hpid0, hnext, hrange]
        simp
      · rw [ih2, hnext]
        simp only [List.length_cons]
        omega
      · rw [hrange]
        intro pid hpid
        rcases List.mem_cons.mp hpid with hpid | hpid
        · subst hpid
          obtain ⟨p, hp, hpg, hnx, hpre⟩ := buildStep_new o s tempLast qa
            (WFb_nextId_not_mtm s hWF)
          have hpre2 : p.pre_page = none ∨ ∃ l, p.pre_page = some l ∧ l < s.nextId := by
            rcases hpre with h | h
            · exact Or.inl h
            · cases htl : tempLast with
              | none => rw [htl] at h; exact Or.inl h
              | some l => rw [htl] at h; exact Or.inr ⟨l, h, hcur l htl⟩
          have hlt1 : s.nextId < (buildStep o s tempLast qa).1.nextId := by
            rw [hnext]; exact Nat.lt_succ_self _
          rcases ih11 s.nextId hlt1 with hsh | ⟨p1, m2, hp1, hp2⟩
          · exact ⟨p, by rw [hsh]; exact hp, hpg, hnx, hpre2⟩
          · have hpp : p1 = p := Option.some.inj (hp1.symm.trans hp)
            subst hpp
            refine ⟨{ p1 with meta_info := some m2 }, hp2, ?_, ?_, ?_⟩
            · exact hpg
            · exact hnx
            · exact hpre2
        · have hm2 : pid ∈ List.range' (buildStep o s tempLast qa).1.nextId rest.length := by
            rw [hnext]
            exact hpid
          exact ih10 pid hm2
      · intro i hi
        have hi1 : i < (buildStep o s tempLast qa).1.nextId := by
          rw [hnext]
          exact Nat.lt_succ_of_lt hi
        rcases buildStep_shape o s tempLast qa i (Nat.ne_of_lt hi) with h1 | ⟨p, m2, hp, h2⟩
        · rcases ih11 i hi1 with h3 | ⟨p1, m3, hp1, h4⟩
          · exact Or.inl (h3.trans h1)
          · right
            refine ⟨p1, m3, ?_, h4⟩
            rw [h1] at hp1
            exact hp1
        · rcases ih11 i hi1 with h3 | ⟨p1, m3, hp1, h4⟩
          · right
            exact ⟨p, m2, hp, h3.trans h2⟩
          · right
            have hpp : p1 = { p with meta_info := some m2 } :=
              (Option.some.inj (h2.symm.trans hp1)).symm
            subst hpp
            exact ⟨p, m3, hp, h4⟩

/-! Lemmas about link repair, session insertion and the post-build phase. -/

theorem upc_frame (s : UState) (f t : Nat) :
    (update_page_connections s f t).stmQueue = s.stmQueue ∧
    (update_page_connections s f t).stmCapacity = s.stmCapacity ∧
    (update_page_connections s f t).mtm = s.mtm ∧
    (update_page_connections s f t).insertCalls = s.insertCalls ∧
    (update_page_connections s f t).saves = s.saves ∧
    (update_page_connections s f t).last_evicted = s.last_evicted ∧
    (update_page_connections s f t).nextId = s.nextId ∧
    (update_page_connections s f t).connCalls = s.connCalls ++ [(f, t)] := by
  refine ⟨?_, ?_, ?_, ?_, ?_, ?_, ?_, ?_⟩ <;>
  · unfold update_page_connections
    dsimp only
    split
    · split <;> rfl
    · split <;> rfl

theorem upc_heap_other (s : UState) (f t i : Nat) (hif : i ≠ f) (hit : i ≠ t) :
    heapGet (update_page_connections s f t).heap i = heapGet s.heap i := by
  unfold update_page_connections
  dsimp only
  split
  · rename_i p hp
    split
    · rename_i p2 hp2
      show heapGet (heapSet (heapSet s.heap f { p with next_page := some t }) t
          { p2 with pre_page := some f }) i = heapGet s.heap i
      rw [heapGet_heapSet_ne _ _ _ _ hit, heapGet_heapSet_ne _ _ _ _ hif]
    · show heapGet (heapSet s.heap f { p with next_page := some t }) i = heapGet s.heap i
      rw [heapGet_heapSet_ne _ _ _ _ hif]
  · split
    · rename_i p2 hp2
      show heapGet (heapSet s.heap t { p2 with pre_page := some f }) i = heapGet s.heap i
      rw [heapGet_heapSet_ne _ _ _ _ hit]
    · rfl

/-- The target page of a link repair keeps all fields except possibly gaining
`pre_page = fromId`. -/
theorem upc_heap_toId (s : UState) (f t : Nat) (hft : f ≠ t) :
    heapGet (update_page_connections s f t).heap t = heapGet s.heap t ∨
    ∃ p, heapGet s.heap t = some p ∧
      heapGet (update_page_connections s f t).heap t
        = some { p with pre_page := some f } := by
  have htf : t ≠ f := fun hc => hft hc.symm
  unfold update_page_connections
  dsimp only
  split
  · rename_i p hp
    split
    · rename_i p2 hp2
      right
      have h2a : heapGet (heapSet s.heap f { p with next_page := some t }) t = some p2 :=
        (get_page_by_id_spec _ t p2 hp2).2
      rw [heapGet_heapSet_ne _ _ _ _ htf] at h2a
      refine ⟨p2, h2a, ?_⟩
      show heapGet (heapSet (heapSet s.heap f { p with next_page := some t }) t
          { p2 with pre_page := some f }) t = some { p2 with pre_page := some f }
      exact heapGet_heapSet_eq _ _ _
    · left
      show heapGet (heapSet s.heap f { p with next_page := some t }) t = heapGet s.heap t
      rw [heapGet_heapSet_ne _ _ _ _ htf]
  · split
    · rename_i p2 hp2
      right
      refine ⟨p2, (get_page_by_id_spec _ t p2 hp2).2, ?_⟩
      show heapGet (heapSet s.heap t { p2 with pre_page := some f }) t
        = some { p2 with pre_page := some f }
      exact heapGet_heapSet_eq _ _ _
    · left
      rfl

theorem insertPages_frame (s : UState) (c : InsertCall) :
    (insertPages s c).heap = s.heap ∧
    (insertPages s c).stmQueue = s.stmQueue ∧
    (insertPages s c).stmCapacity = s.stmCapacity ∧
    (insertPages s c).connCalls = s.connCalls ∧
    (insertPages s c).saves = s.saves ∧
    (insertPages s c).last_evicted = s.last_evicted ∧
    (insertPages s c).nextId = s.nextId ∧
    (insertPages s c).insertCalls = s.insertCalls ++ [c] :=
  ⟨rfl, rfl, rfl, rfl, rfl, rfl, rfl, rfl⟩

theorem mem_addAll (ps : List Nat) :
    ∀ (m : List Nat) (i : Nat), (i ∈ m ∨ i ∈ ps) →
      i ∈ ps.foldl (fun acc j => if j ∈ acc then acc else acc ++ [j]) m := by
  induction ps with
  | nil =>
      intro m i h
      rcases h with h | h
      · exact h
      · simp at h
  | cons j rest ihp =>
      intro m i h
      simp only [List.foldl_cons]
      apply ihp
      by_cases hj : j ∈ m
      · rw [if_pos hj]
        rcases h with h | h
        · exact Or.inl h
        · rcases List.mem_cons.mp h with h | h
          · subst h
            exact Or.inl hj
          · exact Or.inr h
      · rw [if_neg hj]
        rcases h with h | h
        · exact Or.inl (List.mem_append.mpr (Or.inl h))
        · rcases List.mem_cons.mp h with h | h
          · subst h
            exact Or.inl (List.mem_append.mpr (Or.inr (List.mem_singleton.mpr rfl)))
          · exact Or.inr h

theorem insertPages_mtm (s : UState) (c : InsertCall) (i : Nat)
    (h : i ∈ s.mtm ∨ i ∈ c.pages) : i ∈ (insertPages s c).mtm :=
  mem_addAll c.pages s.mtm i h

theorem insertLoop_noRaise (batch : List Nat) (items : List SummaryItem) :
    ∀ s : UState, insertLoop noRaise batch items s
      = .ok (items.foldl (fun st item => insertPages st (mkInsertCall batch item)) s) := by
  induction items with
  | nil => intro s; rfl
  | cons item rest ihi =>
      intro s
      exact ihi (insertPages s (mkInsertCall batch item))

theorem foldl_insertPages_facts (batch : List Nat) (items : List SummaryItem) :
    ∀ s : UState,
      (items.foldl (fun st item => insertPages st (mkInsertCall batch item)) s).heap
        = s.heap ∧
      (items.foldl (fun st item => insertPages st (mkInsertCall batch item)) s).stmQueue
        = s.stmQueue ∧
      (items.foldl (fun st item => insertPages st (mkInsertCall batch item)) s).connCalls
        = s.connCalls ∧
      (items.foldl (fun st item => insertPages st (mkInsertCall batch item)) s).saves
        = s.saves ∧
      (items.foldl (fun st item => insertPages st (mkInsertCall batch item)) s).last_evicted
        = s.last_evicted ∧
      (items.foldl (fun st item => insertPages st (mkInsertCall batch item)) s).insertCalls
        = s.insertCalls ++ items.map (mkInsertCall batch) ∧
      (∀ i ∈ s.mtm,
        i ∈ (items.foldl (fun st item => insertPages st (mkInsertCall batch item)) s).mtm) ∧
      (items ≠ [] → ∀ i ∈ batch,
        i ∈ (items.foldl (fun st item => insertPages st (mkInsertCall batch item)) s).mtm) := by
  induction items with
  | nil =>
      intro s
      refine ⟨rfl, rfl, rfl, rfl, rfl, by simp, fun i hi => hi, ?_⟩
      intro h
      exact absurd rfl h
  | cons item rest ihi =>
      intro s
      obtain ⟨j1, j2, j3, j4, j5, j6, j7, j8⟩ := ihi (insertPages s (mkInsertCall batch item))
      simp only [List.foldl_cons]
      refine ⟨j1, j2, j3, j4, j5, ?_, ?_, ?_⟩
      · rw [j6]
        simp [insertPages]
      · intro i hi
        exact j7 i (insertPages_mtm s _ i (Or.inl hi))
      · intro _ i hi
        exact j7 i (insertPages_mtm s _ i (Or.inr hi))

theorem fallbackInsert_noRaise (o : Oracles) (batch : List Nat) (txt : String)
    (s : UState) :
    fallbackInsert o noRaise batch txt s
      = .ok (insertPages s
          { summary := fallbackSummary,
            keywords := if txt ≠ "" then o.extract_keywords txt else [],
            pages := batch }) := by
  unfold fallbackInsert
  simp [noRaise]

/-- The pre-edge repair requests a finalize pass makes, one per page whose
`pre_page` is set. -/
def preEdges (h : List (Nat × Page)) (l : List Nat) : List (Nat × Nat) :=
  l.filterMap (fun pid => (heapGet h pid).bind (fun p => p.pre_page.map (fun q => (q, pid))))

theorem preEdges_congr (h1 h2 : List (Nat × Page)) (l : List Nat)
    (hagree : ∀ pid ∈ l, heapGet h2 pid = heapGet h1 pid) :
    preEdges h2 l = preEdges h1 l := by
  unfold preEdges
  induction l with
  | nil => rfl
  | cons a rest ihl =>
      simp only [List.filterMap_cons]
      rw [hagree a (List.mem_cons_self _ _),
        ihl (fun pid hpid => hagree pid (List.mem_cons_of_mem _ hpid))]

/-- Under no raises, one finalize iteration on a page with `next_page = none`
and a strictly smaller `pre_page` (if any) performs exactly the pre-edge
repair: the `next_page` branch is never taken, because the only in-step
mutation of this page rewrites `pre_page` to the same value. -/
theorem finalizeStep_noRaise_none (s : UState) (pid : Nat) (p : Page)
    (hp : heapGet s.heap pid = some p) (hnx : p.next_page = none)
    (hnone : p.pre_page = none) :
    finalizeStep noRaise s pid = .ok s := by
  unfold finalizeStep
  simp only [hp, hnone]
  simp [hnx]

theorem finalizeStep_noRaise_pre (s : UState) (pid : Nat) (p : Page) (q : Nat)
    (hp : heapGet s.heap pid = some p) (hnx : p.next_page = none)
    (hq : p.pre_page = some q) (hqlt : q < pid) :
    finalizeStep noRaise s pid = .ok (update_page_connections s q pid) := by
  have hnext1 : (heapGet (update_page_connections s q pid).heap pid).bind
      (fun p2 => p2.next_page) = none := by
    rcases upc_heap_toId s q pid (Nat.ne_of_lt hqlt) with h | ⟨p3, hp3, h2⟩
    · rw [h, hp]
      exact hnx
    · rw [h2]
      have hpp : p3 = p := Option.some.inj (hp3.symm.trans hp)
      subst hpp
      show ({ p3 with pre_page := some q } : Page).next_page = none
      exact hnx
  unfold finalizeStep
  simp only [hp, hq]
  simp [noRaise, hnext1]

/-- The whole finalize pass, under no raises, over a strictly increasing id
list of pages that all have `next_page = none` and smaller `pre_page`s:
it succeeds, logs exactly the pre-edges, and touches neither the short-term
queue, the continuity cursor, the store membership nor the insert log. -/
theorem finalizeLoop_noRaise_spec (l : List Nat) :
    ∀ s : UState,
      (∀ pid ∈ l, ∃ p, heapGet s.heap pid = some p ∧ p.next_page = none ∧
        (p.pre_page = none ∨ ∃ q, p.pre_page = some q ∧ q < pid)) →
      l.Pairwise (· < ·) →
      ∃ s2, finalizeLoop noRaise l s = .ok s2 ∧
        s2.connCalls = s.connCalls ++ preEdges s.heap l ∧
        s2.stmQueue = s.stmQueue ∧ s2.stmCapacity = s.stmCapacity ∧
        s2.mtm = s.mtm ∧ s2.insertCalls = s.insertCalls ∧
        s2.last_evicted = s.last_evicted ∧ s2.nextId = s.nextId := by
  induction l with
  | nil =>
      intro s _ _
      exact ⟨s, rfl, by simp [preEdges], rfl, rfl, rfl, rfl, rfl, rfl⟩
  | cons pid rest ihl =>
      intro s hok hpw
      obtain ⟨p, hp, hnx, hpre⟩ := hok pid (List.mem_cons_self _ _)
      have hgt : ∀ x ∈ rest, pid < x := (List.pairwise_cons.mp hpw).1
      have hpwrest : rest.Pairwise (· < ·) := (List.pairwise_cons.mp hpw).2
      rcases hpre with hnone | ⟨q, hq, hqlt⟩
      · have hstep := finalizeStep_noRaise_none s pid p hp hnx hnone
        obtain ⟨s2, h2eq, h2cc, h2a, h2b, h2c, h2d, h2e, h2f⟩ :=
          ihl s (fun x hx => hok x (List.mem_cons_of_mem _ hx)) hpwrest
        refine ⟨s2, ?_, ?_, h2a, h2b, h2c, h2d, h2e, h2f⟩
        · show (match finalizeStep noRaise s pid with
                | .error s1 => Except.error s1
                | .ok s1 => finalizeLoop noRaise rest s1) = .ok s2
          rw [hstep]
          exact h2eq
        · rw [h2cc]
          unfold preEdges
          simp [List.filterMap_cons, hp, hnone]
      · have hstep := finalizeStep_noRaise_pre s pid p q hp hnx hq hqlt
        have hagree : ∀ x ∈ rest,
            heapGet (update_page_connections s q pid).heap x = heapGet s.heap x := by
          intro x hx
          have hx1 : x ≠ q := Nat.ne_of_gt (lt_trans hqlt (hgt x hx))
          have hx2 : x ≠ pid := Nat.ne_of_gt (hgt x hx)
          exact upc_heap_other s q pid x hx1 hx2
        have hok1 : ∀ x ∈ rest, ∃ p2,
            heapGet (update_page_connections s q pid).heap x = some p2 ∧
            p2.next_page = none ∧
            (p2.pre_page = none ∨ ∃ q2, p2.pre_page = some q2 ∧ q2 < x) := by
          intro x hx
          obtain ⟨p2, hp2, h1, h2⟩ := hok x (List.mem_cons_of_mem _ hx)
          exact ⟨p2, (hagree x hx).trans hp2, h1, h2⟩
        obtain ⟨s2, h2eq, h2cc, h2a, h2b, h2c, h2d, h2e, h2f⟩ :=
          ihl (update_page_connections s q pid) hok1 hpwrest
        have hucc := upc_frame s q pid
        refine ⟨s2, ?_, ?_, h2a.trans hucc.1, h2b.trans hucc.2.1, h2c.trans hucc.2.2.1,
          h2d.trans hucc.2.2.2.1, h2e.trans hucc.2.2.2.2.2.1, h2f.trans hucc.2.2.2.2.2.2.1⟩
        · show (match finalizeStep noRaise s pid with
                | .error s1 => Except.error s1
                | .ok s1 => finalizeLoop noRaise rest s1) = .ok s2
          rw [hstep]
          exact h2eq
        · rw [h2cc, preEdges_congr s.heap _ rest hagree, hucc.2.2.2.2.2.2.2]
          unfold preEdges
          simp [List.filterMap_cons, hp, hq, List.append_assoc]

theorem finalizeStep_stm_cursor (r : RaiseSpec) (s : UState) (pid : Nat) :
    (resultState (finalizeStep r s pid)).stmQueue = s.stmQueue ∧
    (resultState (finalizeStep r s pid)).last_evicted = s.last_evicted := by
  unfold finalizeStep
  cases hg : heapGet s.heap pid with
  | none => exact ⟨rfl, rfl⟩
  | some p =>
      simp only [hg]
      cases hpre : p.pre_page with
      | none =>
          simp only [hpre]
          cases hb : (heapGet s.heap pid).bind (fun p2 => p2.next_page) with
          | none => simp only [hb]; exact ⟨rfl, rfl⟩
          | some nid =>
              simp only [hb]
              cases hr : r.conn_raises (pid, nid) with
              | true =>
                  simp only [hr, if_true]
                  exact ⟨rfl, rfl⟩
              | false =>
                  simp only [hr, Bool.false_eq_true, if_false]
                  exact ⟨(upc_frame s pid nid).1, (upc_frame s pid nid).2.2.2.2.2.1⟩
      | some q =>
          simp only [hpre]
          cases hr1 : r.conn_raises (q, pid) with
          | true =>
              simp only [hr1, if_true]
              exact ⟨rfl, rfl⟩
          | false =>
              simp only [hr1, Bool.false_eq_true, if_false]
              cases hb : (heapGet (update_page_connections s q pid).heap pid).bind
                  (fun p2 => p2.next_page) with
              | none =>
                  simp only [hb]
                  exact ⟨(upc_frame s q pid).1, (upc_frame s q pid).2.2.2.2.2.1⟩
              | some nid =>
                  simp only [hb]
                  cases hr2 : r.conn_raises (pid, nid) with
                  | true =>
                      simp only [hr2, if_true]
                      exact ⟨(upc_frame s q pid).1, (upc_frame s q pid).2.2.2.2.2.1⟩
                  | false =>
                      simp only [hr2, Bool.false_eq_true, if_false]
                      exact ⟨((upc_frame _ pid nid).1).trans (upc_frame s q pid).1,
                        ((upc_frame _ pid nid).2.2.2.2.2.1).trans
                          (upc_frame s q pid).2.2.2.2.2.1⟩

theorem finalizeLoop_stm_cursor (r : RaiseSpec) (l : List Nat) :
    ∀ s : UState,
      (resultState (finalizeLoop r l s)).stmQueue = s.stmQueue ∧
      (resultState (finalizeLoop r l s)).last_evicted = s.last_evicted := by
  induction l with
  | nil => intro s; exact ⟨rfl, rfl⟩
  | cons pid rest ihl =>
      intro s
      have hstep := finalizeStep_stm_cursor r s pid
      show (resultState (match finalizeStep r s pid with
            | .error s1 => Except.error s1
            | .ok s1 => finalizeLoop r rest s1)).stmQueue = s.stmQueue ∧
        (resultState (match finalizeStep r s pid with
            | .error s1 => Except.error s1
            | .ok s1 => finalizeLoop r rest s1)).last_evicted = s.last_evicted
      cases hs : finalizeStep r s pid with
      | error s1 =>
          rw [hs] at hstep
          simpa using hstep
      | ok s1 =>
          rw [hs] at hstep
          simp only [resultState] at hstep
          simp only []
          exact ⟨(ihl s1).1.trans hstep.1, (ihl s1).2.trans hstep.2⟩

theorem insertLoop_stm_cursor (r : RaiseSpec) (batch : List Nat)
    (items : List SummaryItem) :
    ∀ s : UState,
      (resultState (insertLoop r batch items s)).stmQueue = s.stmQueue ∧
      (resultState (insertLoop r batch items s)).last_evicted = s.last_evicted := by
  induction items with
  | nil => intro s; exact ⟨rfl, rfl⟩
  | cons item rest ihi =>
      intro s
      show (resultState (if r.insert_raises (mkInsertCall batch item) then .error s
            else insertLoop r batch rest (insertPages s (mkInsertCall batch item)))).stmQueue
          = s.stmQueue ∧
        (resultState (if r.insert_raises (mkInsertCall batch item) then .error s
            else insertLoop r batch rest (insertPages s (mkInsertCall batch item)))).last_evicted
          = s.last_evicted
      cases hr : r.insert_raises (mkInsertCall batch item) with
      | true =>
          simp only [hr, if_true]
          exact ⟨rfl, rfl⟩
      | false =>
          simp only [hr, Bool.false_eq_true, if_false]
          exact ⟨(ihi _).1, (ihi _).2⟩

theorem fallbackInsert_stm_cursor (o : Oracles) (r : RaiseSpec) (batch : List Nat)
    (txt : String) (s : UState) :
    (resultState (fallbackInsert o r batch txt s)).stmQueue = s.stmQueue ∧
    (resultState (fallbackInsert o r batch txt s)).last_evicted = s.last_evicted := by
  unfold fallbackInsert
  by_cases h1 : txt ≠ "" ∧ r.keywords_raises txt = true
  · rw [if_pos h1]
    exact ⟨rfl, rfl⟩
  · rw [if_neg h1]
    by_cases h2 : r.insert_raises
        { summary := fallbackSummary,
          keywords := if txt ≠ "" then o.extract_keywords txt else [],
          pages := batch } = true
    · rw [if_pos h2]
      exact ⟨rfl, rfl⟩
    · rw [if_neg h2]
      exact ⟨rfl, rfl⟩

/-- Nothing in the post-build phase — summary, insertion, finalization, the
closing save, nor an exception raised anywhere inside it — changes the
short-term queue or the continuity cursor. -/
theorem postPhase_stm_cursor (o : Oracles) (r : RaiseSpec) (batch : List Nat)
    (s : UState) :
    (resultState (postPhase o r batch s)).stmQueue = s.stmQueue ∧
    (resultState (postPhase o r batch s)).last_evicted = s.last_evicted := by
  unfold postPhase
  by_cases hs : r.summary_raises (batchInputText s batch) = true
  · rw [if_pos hs]
    exact ⟨rfl, rfl⟩
  · rw [if_neg hs]
    have hafter : ∀ res : Except UState UState,
        (resultState res).stmQueue = s.stmQueue →
        (resultState res).last_evicted = s.last_evicted →
        UState.stmQueue (resultState (match res with
          | .error s1 => Except.error s1
          | .ok s1 =>
            match finalizeLoop r batch s1 with
            | .error s2 => Except.error s2
            | .ok s2 =>
                Except.ok (if batch.isEmpty then s2 else { s2 with saves := s2.saves + 1 })))
          = s.stmQueue ∧
        UState.last_evicted (resultState (match res with
          | .error s1 => Except.error s1
          | .ok s1 =>
            match finalizeLoop r batch s1 with
            | .error s2 => Except.error s2
            | .ok s2 =>
                Except.ok (if batch.isEmpty then s2 else { s2 with saves := s2.saves + 1 })))
          = s.last_evicted := by
      intro res hq hc
      cases res with
      | error s1 => exact ⟨hq, hc⟩
      | ok s1 =>
          simp only [resultState] at hq hc
          have hfin := finalizeLoop_stm_cursor r batch s1
          cases hf : finalizeLoop r batch s1 with
          | error s2 =>
              rw [hf] at hfin
              simp only [resultState] at hfin
              simp only [hf]
              exact ⟨hfin.1.trans hq, hfin.2.trans hc⟩
          | ok s2 =>
              rw [hf] at hfin
              simp only [resultState] at hfin
              simp only [hf]
              cases hb : batch.isEmpty with
              | true =>
                  simp only [hb, if_true]
                  exact ⟨hfin.1.trans hq, hfin.2.trans hc⟩
              | false =>
                  simp only [hb, Bool.false_eq_true, if_false]
                  exact ⟨hfin.1.trans hq, hfin.2.trans hc⟩
    cases hms : summariesOf (o.multi_summary (batchInputText s batch)) with
    | some items =>
        simp only [hms]
        have hins := insertLoop_stm_cursor r batch items s
        exact hafter (insertLoop r batch items s) hins.1 hins.2
    | none =>
        simp only [hms]
        have hins := fallbackInsert_stm_cursor o r batch (batchInputText s batch) s
        exact hafter (fallbackInsert o r batch (batchInputText s batch) s) hins.1 hins.2

/-- The built batch ids are the consecutive fresh counter values, with no
hypothesis on the state. -/
theorem buildLoop_ids (o : Oracles) (qas : List QA) :
    ∀ (s : UState) (tempLast : Option Nat) (acc : List Nat),
      (buildLoop o qas s tempLast acc).2 = acc ++ List.range' s.nextId qas.length := by
  induction qas with
  | nil =>
      intro s t acc
      simp [buildLoop]
  | cons qa rest ihq =>
      intro s t acc
      have h := ihq (buildStep o s t qa).1 (some (buildStep o s t qa).2)
        (acc ++ [(buildStep o s t qa).2])
      rw [show buildLoop o (qa :: rest) s t acc
            = buildLoop o rest (buildStep o s t qa).1 (some (buildStep o s t qa).2)
                (acc ++ [(buildStep o s t qa).2]) from rfl,
        h, buildStep_pid, buildStep_nextId]
      rw [show List.range' s.nextId (qa :: rest).length
            = s.nextId :: List.range' (s.nextId + 1) rest.length from rfl]
      simp

theorem buildLoop_stmQueue (o : Oracles) (qas : List QA) :
    ∀ (s : UState) (tempLast : Option Nat) (acc : List Nat),
      (buildLoop o qas s tempLast acc).1.stmQueue = s.stmQueue := by
  induction qas with
  | nil =>
      intro s t acc
      rfl
  | cons qa rest ihq =>
      intro s t acc
      exact (ihq (buildStep o s t qa).1 (some (buildStep o s t qa).2)
        (acc ++ [(buildStep o s t qa).2])).trans (buildStep_frame o s t qa).1

/-- The post-build phase under no raises: it succeeds, appends exactly the
pre-edge repair requests to the connection log, and every
`insert_pages_into_session` call it makes passes the whole batch. -/
theorem postPhase_noRaise_spec (o : Oracles) (batch : List Nat) (s : UState)
    (hok : ∀ pid ∈ batch, ∃ p, heapGet s.heap pid = some p ∧ p.next_page = none ∧
        (p.pre_page = none ∨ ∃ q, p.pre_page = some q ∧ q < pid))
    (hpw : batch.Pairwise (· < ·)) :
    ∃ s3, postPhase o noRaise batch s = .ok s3 ∧
      s3.connCalls = s.connCalls ++ preEdges s.heap batch ∧
      (∀ c ∈ s3.insertCalls.drop s.insertCalls.length, c.pages = batch) ∧
      s3.stmQueue = s.stmQueue ∧
      s3.last_evicted = s.last_evicted := by
  have hcont : ∀ (sI : UState) (L : List InsertCall),
      sI.heap = s.heap → sI.stmQueue = s.stmQueue → sI.connCalls = s.connCalls →
      sI.last_evicted = s.last_evicted → sI.insertCalls = s.insertCalls ++ L →
      (∀ c ∈ L, c.pages = batch) →
      ∃ s3, (match finalizeLoop noRaise batch sI with
        | .error s2 => (Except.error s2 : Except UState UState)
        | .ok s2 =>
            Except.ok (if batch.isEmpty then s2 else { s2 with saves := s2.saves + 1 }))
          = .ok s3 ∧
        s3.connCalls = s.connCalls ++ preEdges s.heap batch ∧
        (∀ c ∈ s3.insertCalls.drop s.insertCalls.length, c.pages = batch) ∧
        s3.stmQueue = s.stmQueue ∧
        s3.last_evicted = s.last_evicted := by
    intro sI L hheap hstm hcc hcur hic hpages
    have hok1 : ∀ pid ∈ batch, ∃ p, heapGet sI.heap pid = some p ∧ p.next_page = none ∧
        (p.pre_page = none ∨ ∃ q, p.pre_page = some q ∧ q < pid) := by
      rw [hheap]
      exact hok
    obtain ⟨s2, hfeq, hfcc, hfa, hfb, hfc, hfd, hfe, hff⟩ :=
      finalizeLoop_noRaise_spec batch sI hok1 hpw
    have hcc2 : s2.connCalls = s.connCalls ++ preEdges s.heap batch := by
      rw [hfcc, hcc, hheap]
    have hic2 : ∀ c ∈ s2.insertCalls.drop s.insertCalls.length, c.pages = batch := by
      rw [hfd, hic, List.drop_left]
      exact hpages
    cases hb : batch.isEmpty with
    | true =>
        refine ⟨s2, ?_, hcc2, hic2, hfa.trans hstm, hfe.trans hcur⟩
        rw [hfeq]
        simp [hb]
    | false =>
        refine ⟨{ s2 with saves := s2.saves + 1 }, ?_, hcc2, hic2,
          hfa.trans hstm, hfe.trans hcur⟩
        rw [hfeq]
        simp [hb]
  unfold postPhase
  rw [if_neg (show ¬ (noRaise.summary_raises (batchInputText s batch) = true) by
    simp [noRaise])]
  cases hms : summariesOf (o.multi_summary (batchInputText s batch)) with
  | some items =>
      simp only [hms, insertLoop_noRaise]
      obtain ⟨j1, j2, j3, j4, j5, j6, j7, j8⟩ := foldl_insertPages_facts batch items s
      exact hcont _ (items.map (mkInsertCall batch)) j1 j2 j3 j5 j6
        (fun c hc => by
          obtain ⟨item, _, hc2⟩ := List.mem_map.mp hc
          rw [← hc2]
          rfl)
  | none =>
      simp only [hms, fallbackInsert_noRaise]
      exact hcont
        (insertPages s (fallbackCall o (batchInputText s batch) batch))
        [fallbackCall o (batchInputText s batch) batch]
        rfl rfl rfl rfl rfl (fun c hc => by
          rw [List.mem_singleton.mp hc]
          rfl)

/-- Unfolding of a non-empty-batch run: eviction, building, the unconditional
cursor update to the batch's last page, then the post-build phase. -/
theorem process_eq_nonempty (o : Oracles) (r : RaiseSpec) (s : UState) (lp : Nat)
    (hne : (drainLoop s.stmCapacity s.stmQueue).1 ≠ [])
    (hlp : (buildLoop o (drainLoop s.stmCapacity s.stmQueue).1
        { s with stmQueue := (drainLoop s.stmCapacity s.stmQueue).2 }
        s.last_evicted []).2.getLast? = some lp)
    (hb2 : (buildLoop o (drainLoop s.stmCapacity s.stmQueue).1
        { s with stmQueue := (drainLoop s.stmCapacity s.stmQueue).2 }
        s.last_evicted []).2 ≠ []) :
    process_short_term_to_mid_term o r s
      = postPhase o r
          (buildLoop o (drainLoop s.stmCapacity s.stmQueue).1
            { s with stmQueue := (drainLoop s.stmCapacity s.stmQueue).2 }
            s.last_evicted []).2
          { (buildLoop o (drainLoop s.stmCapacity s.stmQueue).1
              { s with stmQueue := (drainLoop s.stmCapacity s.stmQueue).2 }
              s.last_evicted []).1
            with last_evicted := some lp } := by
  unfold process_short_term_to_mid_term
  dsimp only
  rw [if_neg (show ¬ ((drainLoop s.stmCapacity s.stmQueue).1.isEmpty = true) by
    rw [List.isEmpty_eq_true]
    exact hne)]
  simp only [hlp]
  rw [if_neg (show ¬ ((buildLoop o (drainLoop s.stmCapacity s.stmQueue).1
      { s with stmQueue := (drainLoop s.stmCapacity s.stmQueue).2 }
      s.last_evicted []).2.isEmpty = true) by
    rw [List.isEmpty_eq_true]
    exact hb2)]

/-- Core facts of every non-empty-batch run, with or without batch-level
raises: the batch is non-empty, the evicted turns are popped, and the cursor
ends at the batch's last built page. -/
theorem process_core (o : Oracles) (r : RaiseSpec) (s : UState)
    (hne : (drainLoop s.stmCapacity s.stmQueue).1 ≠ []) :
    (buildLoop o (drainLoop s.stmCapacity s.stmQueue).1
        { s with stmQueue := (drainLoop s.stmCapacity s.stmQueue).2 }
        s.last_evicted []).2 ≠ [] ∧
    (resultState (process_short_term_to_mid_term o r s)).stmQueue
        = (drainLoop s.stmCapacity s.stmQueue).2 ∧
    (resultState (process_short_term_to_mid_term o r s)).last_evicted
        = (buildLoop o (drainLoop s.stmCapacity s.stmQueue).1
            { s with stmQueue := (drainLoop s.stmCapacity s.stmQueue).2 }
            s.last_evicted []).2.getLast? := by
  have hids := buildLoop_ids o (drainLoop s.stmCapacity s.stmQueue).1
    { s with stmQueue := (drainLoop s.stmCapacity s.stmQueue).2 } s.last_evicted []
  have hb2 : (buildLoop o (drainLoop s.stmCapacity s.stmQueue).1
      { s with stmQueue := (drainLoop s.stmCapacity s.stmQueue).2 }
      s.last_evicted []).2 ≠ [] := by
    rw [hids]
    simp only [List.nil_append, ne_eq, List.range'_eq_nil, List.length_eq_zero]
    exact hne
  obtain ⟨lp, hlp⟩ : ∃ lp, (buildLoop o (drainLoop s.stmCapacity s.stmQueue).1
      { s with stmQueue := (drainLoop s.stmCapacity s.stmQueue).2 }
      s.last_evicted []).2.getLast? = some lp := by
    cases hgl : (buildLoop o (drainLoop s.stmCapacity s.stmQueue).1
        { s with stmQueue := (drainLoop s.stmCapacity s.stmQueue).2 }
        s.last_evicted []).2.getLast? with
    | some lp => exact ⟨lp, rfl⟩
    | none => exact absurd (List.getLast?_eq_none_iff.mp hgl) hb2
  rw [process_eq_nonempty o r s lp hne hlp hb2]
  have hpp := postPhase_stm_cursor o r
    (buildLoop o (drainLoop s.stmCapacity s.stmQueue).1
      { s with stmQueue := (drainLoop s.stmCapacity s.stmQueue).2 }
      s.last_evicted []).2
    { (buildLoop o (drainLoop s.stmCapacity s.stmQueue).1
        { s with stmQueue := (drainLoop s.stmCapacity s.stmQueue).2 }
        s.last_evicted []).1
      with last_evicted := some lp }
  refine ⟨hb2, ?_, ?_⟩
  · rw [hpp.1]
    exact buildLoop_stmQueue o (drainLoop s.stmCapacity s.stmQueue).1
      { s with stmQueue := (drainLoop s.stmCapacity s.stmQueue).2 } s.last_evicted []
  · rw [hpp.2]
    exact hlp.symm

/-- A raise-free non-empty-batch run succeeds; its connection-log additions
are exactly the pre-edge repairs of the built batch, and every insertion call
made during the run passes the whole batch. -/
theorem process_noRaise_spec (o : Oracles) (s : UState) (hWF : WFb s = true)
    (hne : (drainLoop s.stmCapacity s.stmQueue).1 ≠ []) :
    ∃ s3, process_short_term_to_mid_term o noRaise s = .ok s3 ∧
      s3.connCalls = s.connCalls
        ++ preEdges
            (buildLoop o (drainLoop s.stmCapacity s.stmQueue).1
              { s with stmQueue := (drainLoop s.stmCapacity s.stmQueue).2 }
              s.last_evicted []).1.heap
            (buildLoop o (drainLoop s.stmCapacity s.stmQueue).1
              { s with stmQueue := (drainLoop s.stmCapacity s.stmQueue).2 }
              s.last_evicted []).2 ∧
      ∀ c ∈ s3.insertCalls.drop s.insertCalls.length,
        c.pages = (buildLoop o (drainLoop s.stmCapacity s.stmQueue).1
          { s with stmQueue := (drainLoop s.stmCapacity s.stmQueue).2 }
          s.last_evicted []).2 := by
  have hWF1 : WFb { s with stmQueue := (drainLoop s.stmCapacity s.stmQueue).2 } = true := hWF
  obtain ⟨b1, b2, b3, b4, b5, b6, b7, b8, b9, b10, b11⟩ :=
    buildLoop_spec o (drainLoop s.stmCapacity s.stmQueue).1
      { s with stmQueue := (drainLoop s.stmCapacity s.stmQueue).2 } s.last_evicted []
      hWF1 ((WFb_spec s hWF).2.2)
  have hb2 : (buildLoop o (drainLoop s.stmCapacity s.stmQueue).1
      { s with stmQueue := (drainLoop s.stmCapacity s.stmQueue).2 }
      s.last_evicted []).2 ≠ [] := by
    rw [b1]
    simp only [List.nil_append, ne_eq, List.range'_eq_nil, List.length_eq_zero]
    exact hne
  obtain ⟨lp, hlp⟩ : ∃ lp, (buildLoop o (drainLoop s.stmCapacity s.stmQueue).1
      { s with stmQueue := (drainLoop s.stmCapacity s.stmQueue).2 }
      s.last_evicted []).2.getLast? = some lp := by
    cases hgl : (buildLoop o (drainLoop s.stmCapacity s.stmQueue).1
        { s with stmQueue := (drainLoop s.stmCapacity s.stmQueue).2 }
        s.last_evicted []).2.getLast? with
    | some lp => exact ⟨lp, rfl⟩
    | none => exact absurd (List.getLast?_eq_none_iff.mp hgl) hb2
  rw [process_eq_nonempty o noRaise s lp hne hlp hb2]
  have hok2 : ∀ pid ∈ (buildLoop o (drainLoop s.stmCapacity s.stmQueue).1
      { s with stmQueue := (drainLoop s.stmCapacity s.stmQueue).2 }
      s.last_evicted []).2,
      ∃ p, heapGet (UState.heap
          { (buildLoop o (drainLoop s.stmCapacity s.stmQueue).1
              { s with stmQueue := (drainLoop s.stmCapacity s.stmQueue).2 }
              s.last_evicted []).1
            with last_evicted := some lp }) pid = some p ∧
        p.next_page = none ∧
        (p.pre_page = none ∨ ∃ q, p.pre_page = some q ∧ q < pid) := by
    intro pid hpid
    rw [b1, List.nil_append] at hpid
    obtain ⟨p, hp, _, hnp, hprep⟩ := b10 pid hpid
    exact ⟨p, hp, hnp, hprep⟩
  have hpw2 : ((buildLoop o (drainLoop s.stmCapacity s.stmQueue).1
      { s with stmQueue := (drainLoop s.stmCapacity s.stmQueue).2 }
      s.last_evicted []).2).Pairwise (· < ·) := by
    rw [b1, List.nil_append]
    exact List.pairwise_lt_range' _ _
  obtain ⟨s3, hps, hpcc, hpic, _, _⟩ :=
    postPhase_noRaise_spec o
      (buildLoop o (drainLoop s.stmCapacity s.stmQueue).1
        { s with stmQueue := (drainLoop s.stmCapacity s.stmQueue).2 }
        s.last_evicted []).2
      { (buildLoop o (drainLoop s.stmCapacity s.stmQueue).1
          { s with stmQueue := (drainLoop s.stmCapacity s.stmQueue).2 }
          s.last_evicted []).1
        with last_evicted := some lp } hok2 hpw2
  refine ⟨s3, hps, ?_, ?_⟩
  · rw [hpcc]
    have hcc : UState.connCalls
        { (buildLoop o (drainLoop s.stmCapacity s.stmQueue).1
            { s with stmQueue := (drainLoop s.stmCapacity s.stmQueue).2 }
            s.last_evicted []).1
          with last_evicted := some lp } = s.connCalls := b8
    exact congrArg (fun x => x ++ preEdges
      (buildLoop o (drainLoop s.stmCapacity s.stmQueue).1
        { s with stmQueue := (drainLoop s.stmCapacity s.stmQueue).2 }
        s.last_evicted []).1.heap
      (buildLoop o (drainLoop s.stmCapacity s.stmQueue).1
        { s with stmQueue := (drainLoop s.stmCapacity s.stmQueue).2 }
        s.last_evicted []).2) hcc
  · have hlen : (UState.insertCalls
        { (buildLoop o (drainLoop s.stmCapacity s.stmQueue).1
            { s with stmQueue := (drainLoop s.stmCapacity s.stmQueue).2 }
            s.last_evicted []).1
          with last_evicted := some lp }).length = s.insertCalls.length :=
      congrArg List.length b7
    intro c hc
    exact hpic c (by
      rw [hlen]
      exact hc)

/-- C3: a run over a non-empty batch of well-formed evicted turns builds
exactly one page per turn, with pairwise-distinct fresh ids none of which ever
occurred before in the process lifetime (no id of a pre-existing page is
reused), and every `insert_pages_into_session` call of the run passes that
whole batch of pages to the mid-term store. -/
theorem C3_thm (o : Oracles) (s : UState) (hWF : WFb s = true)
    (hne : (drainLoop s.stmCapacity s.stmQueue).1 ≠ []) :
    (buildLoop o (drainLoop s.stmCapacity s.stmQueue).1
        { s with stmQueue := (drainLoop s.stmCapacity s.stmQueue).2 }
        s.last_evicted []).2.length
      = (drainLoop s.stmCapacity s.stmQueue).1.length ∧
    ((buildLoop o (drainLoop s.stmCapacity s.stmQueue).1
        { s with stmQueue := (drainLoop s.stmCapacity s.stmQueue).2 }
        s.last_evicted []).2).Nodup ∧
    (∀ e ∈ s.heap, e.1 ∉ (buildLoop o (drainLoop s.stmCapacity s.stmQueue).1
        { s with stmQueue := (drainLoop s.stmCapacity s.stmQueue).2 }
        s.last_evicted []).2) ∧
    ∃ s3, process_short_term_to_mid_term o noRaise s = .ok s3 ∧
      ∀ c ∈ s3.insertCalls.drop s.insertCalls.length,
        c.pages = (buildLoop o (drainLoop s.stmCapacity s.stmQueue).1
          { s with stmQueue := (drainLoop s.stmCapacity s.stmQueue).2 }
          s.last_evicted []).2 := by
  have hids := buildLoop_ids o (drainLoop s.stmCapacity s.stmQueue).1
    { s with stmQueue := (drainLoop s.stmCapacity s.stmQueue).2 } s.last_evicted []
  refine ⟨?_, ?_, ?_, ?_⟩
  · rw [hids]
    simp
  · rw [hids]
    rw [List.nil_append]
    exact List.nodup_range' _ _
  · intro e he hin
    rw [hids, List.nil_append] at hin
    exact absurd ((WFb_spec s hWF).1 e he)
      (Nat.not_lt.mpr (List.mem_range'_1.mp hin).1)
  · obtain ⟨s3, hps, _, hpic⟩ := process_noRaise_spec o s hWF hne
    exact ⟨s3, hps, hpic⟩

theorem C3_thm_witness :
    (buildLoop c2oracles (drainLoop c2init.stmCapacity c2init.stmQueue).1
        { c2init with stmQueue := (drainLoop c2init.stmCapacity c2init.stmQueue).2 }
        c2init.last_evicted []).2.length
      = (drainLoop c2init.stmCapacity c2init.stmQueue).1.length ∧
    ((buildLoop c2oracles (drainLoop c2init.stmCapacity c2init.stmQueue).1
        { c2init with stmQueue := (drainLoop c2init.stmCapacity c2init.stmQueue).2 }
        c2init.last_evicted []).2).Nodup ∧
    (∀ e ∈ c2init.heap, e.1 ∉ (buildLoop c2oracles
        (drainLoop c2init.stmCapacity c2init.stmQueue).1
        { c2init with stmQueue := (drainLoop c2init.stmCapacity c2init.stmQueue).2 }
        c2init.last_evicted []).2) ∧
    ∃ s3, process_short_term_to_mid_term c2oracles noRaise c2init = .ok s3 ∧
      ∀ c ∈ s3.insertCalls.drop c2init.insertCalls.length,
        c.pages = (buildLoop c2oracles (drainLoop c2init.stmCapacity c2init.stmQueue).1
          { c2init with stmQueue := (drainLoop c2init.stmCapacity c2init.stmQueue).2 }
          c2init.last_evicted []).2 :=
  C3_thm c2oracles c2init (by decide) (by decide)

/-- C9: page building never assigns `next_page` — every page of the batch
still has `next_page = None` when handed to `insert_pages_into_session` — and
the run's finalization pass issues exactly the repair requests arising from
`pre_page` pointers (`preEdges`): the `next_page` branch contributes none for
freshly built pages. -/
theorem C9_thm (o : Oracles) (s : UState) (hWF : WFb s = true)
    (hne : (drainLoop s.stmCapacity s.stmQueue).1 ≠ []) :
    (∀ pid ∈ (buildLoop o (drainLoop s.stmCapacity s.stmQueue).1
        { s with stmQueue := (drainLoop s.stmCapacity s.stmQueue).2 }
        s.last_evicted []).2,
      ∃ p, heapGet (buildLoop o (drainLoop s.stmCapacity s.stmQueue).1
          { s with stmQueue := (drainLoop s.stmCapacity s.stmQueue).2 }
          s.last_evicted []).1.heap pid = some p ∧
        p.next_page = none) ∧
    ∃ s3, process_short_term_to_mid_term o noRaise s = .ok s3 ∧
      s3.connCalls = s.connCalls
        ++ preEdges
            (buildLoop o (drainLoop s.stmCapacity s.stmQueue).1
              { s with stmQueue := (drainLoop s.stmCapacity s.stmQueue).2 }
              s.last_evicted []).1.heap
            (buildLoop o (drainLoop s.stmCapacity s.stmQueue).1
              { s with stmQueue := (drainLoop s.stmCapacity s.stmQueue).2 }
              s.last_evicted []).2 := by
  have hWF1 : WFb { s with stmQueue := (drainLoop s.stmCapacity s.stmQueue).2 } = true := hWF
  obtain ⟨b1, b2, b3, b4, b5, b6, b7, b8, b9, b10, b11⟩ :=
    buildLoop_spec o (drainLoop s.stmCapacity s.stmQueue).1
      { s with stmQueue := (drainLoop s.stmCapacity s.stmQueue).2 } s.last_evicted []
      hWF1 ((WFb_spec s hWF).2.2)
  constructor
  · intro pid hpid
    rw [b1, List.nil_append] at hpid
    obtain ⟨p, hp, _, hnp, _⟩ := b10 pid hpid
    exact ⟨p, hp, hnp⟩
  · obtain ⟨s3, hps, hpcc, _⟩ := process_noRaise_spec o s hWF hne
    exact ⟨s3, hps, hpcc⟩

theorem C9_thm_witness :
    (∀ pid ∈ (buildLoop c2oracles (drainLoop c2init.stmCapacity c2init.stmQueue).1
        { c2init with stmQueue := (drainLoop c2init.stmCapacity c2init.stmQueue).2 }
        c2init.last_evicted []).2,
      ∃ p, heapGet (buildLoop c2oracles (drainLoop c2init.stmCapacity c2init.stmQueue).1
          { c2init with stmQueue := (drainLoop c2init.stmCapacity c2init.stmQueue).2 }
          c2init.last_evicted []).1.heap pid = some p ∧
        p.next_page = none) ∧
    ∃ s3, process_short_term_to_mid_term c2oracles noRaise c2init = .ok s3 ∧
      s3.connCalls = c2init.connCalls
        ++ preEdges
            (buildLoop c2oracles (drainLoop c2init.stmCapacity c2init.stmQueue).1
              { c2init with stmQueue := (drainLoop c2init.stmCapacity c2init.stmQueue).2 }
              c2init.last_evicted []).1.heap
            (buildLoop c2oracles (drainLoop c2init.stmCapacity c2init.stmQueue).1
              { c2init with stmQueue := (drainLoop c2init.stmCapacity c2init.stmQueue).2 }
              c2init.last_evicted []).2 :=
  C9_thm c2oracles c2init (by decide) (by decide)

/-- C8: the process-wide continuity cursor always ends a run holding the most
recently built page: a run whose eviction yields an empty batch leaves the
cursor unchanged, and a run with a non-empty batch sets it — unconditionally,
whatever the continuity judgments and even if a later batch-level collaborator
raises — to the last page built in that batch. -/
theorem C8_thm (o : Oracles) (r : RaiseSpec) (s : UState) :
    ((drainLoop s.stmCapacity s.stmQueue).1 = [] →
      (resultState (process_short_term_to_mid_term o r s)).last_evicted
        = s.last_evicted) ∧
    ((drainLoop s.stmCapacity s.stmQueue).1 ≠ [] →
      (buildLoop o (drainLoop s.stmCapacity s.stmQueue).1
          { s with stmQueue := (drainLoop s.stmCapacity s.stmQueue).2 }
          s.last_evicted []).2 ≠ [] ∧
      (resultState (process_short_term_to_mid_term o r s)).last_evicted
        = (buildLoop o (drainLoop s.stmCapacity s.stmQueue).1
            { s with stmQueue := (drainLoop s.stmCapacity s.stmQueue).2 }
            s.last_evicted []).2.getLast?) := by
  constructor
  · intro h
    unfold process_short_term_to_mid_term
    dsimp only
    rw [if_pos (show (drainLoop s.stmCapacity s.stmQueue).1.isEmpty = true by
      rw [List.isEmpty_eq_true]
      exact h)]
    rfl
  · intro hne
    exact ⟨(process_core o r s hne).1, (process_core o r s hne).2.2⟩

theorem C8_thm_witness :
    (resultState (process_short_term_to_mid_term c2oracles noRaise c2init)).last_evicted
      = (buildLoop c2oracles (drainLoop c2init.stmCapacity c2init.stmQueue).1
          { c2init with stmQueue := (drainLoop c2init.stmCapacity c2init.stmQueue).2 }
          c2init.last_evicted []).2.getLast? :=
  ((C8_thm c2oracles noRaise c2init).2 (by decide)).2

/-- A raise specification where the multi-summary collaborator call raises. -/
def rSummaryFails : RaiseSpec :=
  { summary_raises := fun _ => true, keywords_raises := fun _ => false,
    insert_raises := fun _ => false, conn_raises := fun _ => false }

/-- C10: if a batch-level collaborator call made after page building raises
(the raise specification `r` is arbitrary, covering multi-summary generation,
session insertion and connection finalization), the run's outcome — ok or the
state carried by the exception — already has the evicted turns popped from
short-term storage and the continuity cursor set to the batch's last built
page: neither is rolled back. -/
theorem C10_thm (o : Oracles) (r : RaiseSpec) (s : UState)
    (hne : (drainLoop s.stmCapacity s.stmQueue).1 ≠ []) :
    (resultState (process_short_term_to_mid_term o r s)).stmQueue
        = (drainLoop s.stmCapacity s.stmQueue).2 ∧
    (buildLoop o (drainLoop s.stmCapacity s.stmQueue).1
        { s with stmQueue := (drainLoop s.stmCapacity s.stmQueue).2 }
        s.last_evicted []).2 ≠ [] ∧
    (resultState (process_short_term_to_mid_term o r s)).last_evicted
        = (buildLoop o (drainLoop s.stmCapacity s.stmQueue).1
            { s with stmQueue := (drainLoop s.stmCapacity s.stmQueue).2 }
            s.last_evicted []).2.getLast? :=
  ⟨(process_core o r s hne).2.1, (process_core o r s hne).1,
    (process_core o r s hne).2.2⟩

theorem C10_thm_witness :
    (resultState (process_short_term_to_mid_term c2oracles rSummaryFails c2init)).stmQueue
        = (drainLoop c2init.stmCapacity c2init.stmQueue).2 ∧
    (buildLoop c2oracles (drainLoop c2init.stmCapacity c2init.stmQueue).1
        { c2init with stmQueue := (drainLoop c2init.stmCapacity c2init.stmQueue).2 }
        c2init.last_evicted []).2 ≠ [] ∧
    (resultState (process_short_term_to_mid_term c2oracles rSummaryFails c2init)).last_evicted
        = (buildLoop c2oracles (drainLoop c2init.stmCapacity c2init.stmQueue).1
            { c2init with stmQueue := (drainLoop c2init.stmCapacity c2init.stmQueue).2 }
            c2init.last_evicted []).2.getLast? :=
  C10_thm c2oracles rSummaryFails c2init (by decide)

end MemoryOSUpdater
